import Mathlib

/-!
Verification of the CoNLL-U reading/writing core (`labeler/conllu.py`).

Python strings are embedded as `List Char`; Python `int` as `Nat`/`Int`;
Python dicts as insertion-ordered association lists; Python `frozenset`s of
strings as sorted duplicate-free lists.  Fallible code returns `Except`.
The UD tag vocabularies (`ud.POS_TAGS_*`) are caller-injected configuration
and are modelled as an explicit parameter, as the specification prescribes.
-/

deriving instance DecidableEq for Except

namespace Conllu

abbrev Str := List Char

/-! ### Splitting and joining, mirroring Python `str.split(c)` / `c.join` -/

/-- Python `s.split(c)` for a single-character separator: always returns at least
one (possibly empty) part. -/
def splitChar (c : Char) : Str → List Str
  | [] => [[]]
  | x :: xs =>
    match splitChar c xs with
    | [] => [[x]]
    | p :: ps => if x = c then [] :: p :: ps else (x :: p) :: ps

/-- Python `sep.join(parts)` semantics. -/
def joinSep (sep : Str) : List Str → Str
  | [] => []
  | [s] => s
  | s :: t :: r => s ++ sep ++ joinSep sep (t :: r)

/-- Characters removed by Python `str.strip()` (ASCII whitespace). -/
def pySpace (c : Char) : Bool :=
  c = ' ' || c = '\t' || c = '\n' || c = '\x0d' || c = '\x0b' || c = '\x0c'

/-- Python `str.strip()`. -/
def pyStrip (s : Str) : Str :=
  ((s.dropWhile pySpace).reverse.dropWhile pySpace).reverse

/-- Python `sub in s` substring test (empty pattern is contained anywhere). -/
def pyIn (pat : Str) : Str → Bool
  | [] => pat.isPrefixOf []
  | c :: r => pat.isPrefixOf (c :: r) || pyIn pat r

/-- The part of `s` after the first occurrence of `pat`, i.e.
`s.partition(pat)[-1]` restricted to the case where `pat` occurs in `s`. -/
def afterFirst (pat : Str) : Str → Str
  | [] => []
  | c :: r => if pat.isPrefixOf (c :: r) then (c :: r).drop pat.length else afterFirst pat r

/-! ### Decimal rendering and parsing of integers -/

/-- One decimal digit to its character. -/
def digChar (d : Nat) : Char := Char.ofNat (48 + d)

/-- Little-endian decimal digits of `n` as characters, with enough fuel. -/
def natDigitsAux : Nat → Nat → List Char
  | 0, _ => []
  | _ + 1, 0 => []
  | fuel + 1, n + 1 => digChar ((n + 1) % 10) :: natDigitsAux fuel ((n + 1) / 10)

/-- Python `str(n)` for a non-negative integer. -/
def natToStr (n : Nat) : Str :=
  if n = 0 then ['0'] else (natDigitsAux n n).reverse

/-- Python `str(z)` for an integer. -/
def intToStr (z : Int) : Str :=
  if z < 0 then '-' :: natToStr z.natAbs else natToStr z.toNat

/-- Numeric value of a digit string (meaningful on all-digit strings). -/
def parseNat (s : Str) : Nat :=
  s.foldl (fun a c => 10 * a + (c.toNat - 48)) 0

/-- Python `str.isdigit()` on ASCII text: non-empty and all digits. -/
def isdigitStr (s : Str) : Bool := !s.isEmpty && s.all (fun c => c.isDigit)

/-- Digit run with single underscores allowed between digits, as accepted by
Python `int()` after the first digit. -/
def digitsUS : Str → Bool
  | [] => true
  | x :: r =>
    if x = '_' then
      match r with
      | [] => false
      | c :: r2 => c.isDigit && digitsUS r2
    else x.isDigit && digitsUS r

/-- Sign-and-digit check on the stripped text, helper for `pyIntValid`. -/
def pyIntValidCore : Str → Bool
  | [] => false
  | c :: r =>
    if c = '-' || c = '+' then
      match r with
      | [] => false
      | c2 :: r2 => c2.isDigit && digitsUS r2
    else c.isDigit && digitsUS r

/-- Whether Python `int(s)` succeeds: optional surrounding whitespace, an
optional sign, then digits with optional single underscore separators. -/
def pyIntValid (s : Str) : Bool := pyIntValidCore (pyStrip s)

/-- Value computation on the stripped text, helper for `pyIntVal`. -/
def pyIntValCore : Str → Int
  | [] => 0
  | c :: r =>
    if c = '-' then - (parseNat (r.filter (fun x => x ≠ '_')) : Int)
    else if c = '+' then (parseNat (r.filter (fun x => x ≠ '_')) : Int)
    else (parseNat ((c :: r).filter (fun x => x ≠ '_')) : Int)

/-- The value Python `int(s)` returns on strings accepted by `pyIntValid`. -/
def pyIntVal (s : Str) : Int := pyIntValCore (pyStrip s)

/-! ### String ordering (Python `sorted` on strings, by code point) -/

/-- Lexicographic comparison of strings by character code, as Python uses. -/
def strLe : Str → Str → Bool
  | [], _ => true
  | _ :: _, [] => false
  | a :: as, b :: bs => if a < b then true else if b < a then false else strLe as bs

/-- The order `strLe` as a proposition, for use with `List.insertionSort`. -/
def sLe (a b : Str) : Prop := strLe a b = true

instance : DecidableRel sLe := fun a b => inferInstanceAs (Decidable (strLe a b = true))

/-- Key order on feats entries (Python `sorted` on dict items compares the
keys first; keys are unique in a dict, so only keys matter). -/
def pairLe (a b : Str × List Str) : Prop := strLe a.1 b.1 = true

instance : DecidableRel pairLe := fun a b => inferInstanceAs (Decidable (strLe a.1 b.1 = true))

/-- Canonical representation of `frozenset(l)` for a list of strings:
sorted, duplicate-free. -/
def setCanon (l : List Str) : List Str := List.insertionSort sLe l.dedup

/-! ### The data model: the `Word` named tuple -/

/-- The ID field after `_read_word`: an `int` when the text is all digits,
otherwise the original string (multiword span / empty node id). -/
inductive IdVal
  | num (n : Nat)
  | str (s : Str)

deriving instance DecidableEq, Repr for IdVal

/-- The HEAD field after `_read_word`: the string `'_'` is kept as is,
anything else is converted with `int()`. -/
inductive HeadVal
  | num (z : Int)
  | und

deriving instance DecidableEq, Repr for HeadVal

/-- Feats: a Python dict from feature name to a `frozenset` of values,
as an insertion-ordered association list with canonical value sets. -/
abbrev Feats := List (Str × List Str)

/-- The `Word` named tuple of `conllu.py` (read side): ID and HEAD are
integers where the source converts them, FEATS is a dict, the rest are
strings. -/
structure Word where
  ID : IdVal
  FORM : Str
  LEMMA : Str
  UPOSTAG : Str
  XPOSTAG : Str
  FEATS : Feats
  HEAD : HeadVal
  DEPREL : Str
  DEPS : Str
  MISC : Str

deriving instance DecidableEq, Repr for Word

def isNumId : IdVal → Bool
  | .num _ => true
  | .str _ => false

/-! ### `Dataset._read_word` -/

/-- Characters allowed in a non-integer id (`c.isdigit() or c in ('-', '.')`). -/
def idChar (c : Char) : Bool := c.isDigit || c = '-' || c = '.'

/-- Parsing of one `key=value1,value2` feats part; Python's tuple unpacking
of `part.split('=')` raises `ValueError` unless there are exactly two
pieces. Duplicate keys keep the first position and the last value, as a
dict comprehension does. -/
def dictInsert (d : Feats) (k : Str) (v : List Str) : Feats :=
  match d with
  | [] => [(k, v)]
  | (k0, v0) :: rest => if k0 = k then (k0, v) :: rest else (k0, v0) :: dictInsert rest k v

def parseFeatsStep (d : Feats) (part : Str) : Except Unit Feats :=
  match splitChar '=' part with
  | [k, v] => .ok (dictInsert d k (setCanon (splitChar ',' v)))
  | _ => .error ()

/-- The feats dict comprehension of `_read_word` over `line[5]`. -/
def parseFeats (s : Str) : Except Unit Feats :=
  List.foldlM parseFeatsStep [] (splitChar '|' s)

/-- The id conversion of `_read_word`: `int()` on all-digit text, the
original string when it is made of digits, `-`, `.`, an assertion failure
otherwise. -/
def idParse (f0 : Str) : Option IdVal :=
  if isdigitStr f0 then some (.num (parseNat f0))
  else if f0.all idChar then some (.str f0) else none

/-- The feats conversion of `_read_word`: placeholder to empty dict,
otherwise the dict comprehension. -/
def featsParseField (f5 : Str) : Except Unit Feats :=
  if f5 = ['_'] then .ok [] else parseFeats f5

/-- The head conversion of `_read_word`: `'_'` kept, otherwise `int()`
(`none` stands for the `ValueError`). -/
def headParse (f6 : Str) : Option HeadVal :=
  if f6 = ['_'] then some .und
  else if pyIntValid f6 then some (.num (pyIntVal f6)) else none

/-- The reader `Dataset._read_word`, taking the already tab-split line (the source
passes `line.split('\t')`).  `AssertionError`/`ValueError` both surface as
`.error ()`; `gen_sentences` converts either into a `ConlluError`. -/
def read_word (P : List Str) (line : List Str) : Except Unit Word :=
  match line with
  | [f0, f1, f2, f3, f4, f5, f6, f7, f8, f9] =>
    if f0 = [] ∨ f1 = [] ∨ f2 = [] ∨ f3 = [] ∨ f4 = [] ∨
       f5 = [] ∨ f6 = [] ∨ f7 = [] ∨ f8 = [] ∨ f9 = [] then .error ()
    else
      match idParse f0 with
      | none => .error ()
      | some idv =>
        if f3 ∈ P ∨ f3 = ['_'] then
          match featsParseField f5 with
          | .error _ => .error ()
          | .ok fe =>
            match headParse f6 with
            | none => .error ()
            | some hd => .ok ⟨idv, f1, f2, f3, f4, fe, hd, f7, f8, f9⟩
        else .error ()
  | _ => .error ()

/-! ### `Dataset.format_word`, `format_sentence`, `write_sentences` -/

def idStr : IdVal → Str
  | .num n => natToStr n
  | .str s => s

def headStr : HeadVal → Str
  | .num z => intToStr z
  | .und => ['_']

/-- The feats field of `format_word`: `'_'` for an empty dict, otherwise
`'|'.join('{}={}'.format(key, ','.join(sorted(value))) for sorted items)`. -/
def formatFeats (f : Feats) : Str :=
  if f = [] then ['_']
  else joinSep ['|'] ((List.insertionSort pairLe f).map
    (fun kv => kv.1 ++ '=' :: joinSep [','] (List.insertionSort sLe kv.2)))

/-- The ten tab-joined fields of `Dataset.format_word`. -/
def format_word (w : Word) : Str :=
  joinSep ['\t'] [idStr w.ID, w.FORM, w.LEMMA, w.UPOSTAG, w.XPOSTAG,
    formatFeats w.FEATS, headStr w.HEAD, w.DEPREL, w.DEPS, w.MISC]

/-- The writer `Dataset.format_sentence`: word lines joined with newlines plus the
terminating blank line (`'\n'.join(lines + ['', ''])`). -/
def format_sentence (s : List Word) : Str :=
  joinSep ['\n'] (s.map format_word ++ [[], []])

/-- The text `Dataset.write_sentences` writes for a list of sentences of
`Word` tuples (the `isinstance` assertion holds by typing here; the
heterogeneous write path used by `write_graphs` is modelled separately). -/
def write_sentences_text (S : List (List Word)) : Str :=
  (S.map format_sentence).flatten

/-! ### `Dataset.gen_sentences` -/

/-- The dynamically typed `doc_id` / `sent_id` locals of `gen_sentences`:
initialised to the empty string, set to strings by comment lines, and
defaulted to integers at a sentence boundary.  Only the empty string
compares equal to `''`. -/
inductive IdState
  | strv (v : Str)
  | natv (v : Nat)

deriving instance DecidableEq, Repr for IdState

def idStateStr : IdState → Str
  | .strv v => v
  | .natv v => natToStr v

/-- Comment-line handling of `gen_sentences`: `doc_id_prefix in line` is
checked first, then `sent_id_prefix in line`; a match updates the pending
id with `line.partition(prefix)[-1]`.  An empty configured marker makes
`str.partition` raise `ValueError`, which the reader turns into a format
error. -/
def commentUpdate (dp sp line : Str) (d sd : IdState) : Except Unit (IdState × IdState) :=
  if pyIn dp line then
    if dp = [] then .error () else .ok (.strv (afterFirst dp line), sd)
  else if pyIn sp line then
    if sp = [] then .error () else .ok (d, .strv (afterFirst sp line))
  else .ok (d, sd)

/-- The loop body of `Dataset.gen_sentences` over the stripped lines of the
file, with the 0-based line index threaded for error reporting.  Yields the
eager list of `(doc_sent_name, words)` pairs; `.error i` stands for the
`AssertionError`/`ValueError` caught at line `i`.  Words buffered after the
last blank line are dropped, exactly as in the source. -/
def genAux (P : List Str) (dp sp : Str) (mw : Bool) :
    List Str → Nat → IdState → IdState → Nat → List Word →
    Except Nat (List (Str × List Word))
  | [], _, _, _, _, _ => Except.ok []
  | l :: ls, i, d, sd, cnt, sent =>
    let line := pyStrip l
    if line.head? = some '#' then
      match commentUpdate dp sp line d sd with
      | .error _ => .error i
      | .ok (d', sd') => genAux P dp sp mw ls (i + 1) d' sd' cnt sent
    else if line ≠ [] then
      match read_word P (splitChar '\t' line) with
      | .error _ => .error i
      | .ok w =>
        genAux P dp sp mw ls (i + 1) d sd cnt
          (if mw || isNumId w.ID then sent ++ [w] else sent)
    else
      let d' := if d = .strv [] then .natv 0 else d
      let sd' := if sd = .strv [] then .natv cnt else sd
      match genAux P dp sp mw ls (i + 1) d' sd' (cnt + 1) [] with
      | .error e => .error e
      | .ok r => .ok ((idStateStr d' ++ '_' :: idStateStr sd', sent) :: r)

/-- Message of the `ConlluError` raised on `IOError`. -/
def couldNotOpen (path : Str) : Str := "Could not open ".data ++ path

/-- Message of the `ConlluError` raised on a structural violation at the
0-based line `n`. -/
def couldNotRead (path : Str) (n : Nat) : Str :=
  "Could not read ".data ++ path ++ ':' :: natToStr n

/-- The reader `Dataset.gen_sentences` over the already line-split file contents,
with errors carrying the exact `ConlluError` message string built by the
source. -/
def gen_sentences (P : List Str) (dp sp path : Str) (mw : Bool) (lines : List Str) :
    Except Str (List (Str × List Word)) :=
  match genAux P dp sp mw lines 0 (.strv []) (.strv []) 0 [] with
  | .ok r => .ok r
  | .error i => .error (couldNotRead path i)

/-- Python text-file line iteration: split on `'\n'`, with no empty final
line when the text ends in a newline (and no lines at all for empty text). -/
def fileLines (t : Str) : List Str :=
  if t = [] then []
  else
    let p := splitChar '\n' t
    if p.getLast? = some [] then p.dropLast else p

/-- Reading from the file system via `gen_sentences`: a failure to open the stream
(`IOError`) is reported as `Could not open <path>`, anything structural as
`Could not read <path>:<line>`. -/
def gen_from_file (P : List Str) (dp sp path : Str) (mw : Bool)
    (contents : Except Unit Str) : Except Str (List (Str × List Word)) :=
  match contents with
  | .error _ => .error (couldNotOpen path)
  | .ok text => gen_sentences P dp sp path mw (fileLines text)

/-! ### The graph model (`nx.DiGraph` as used by the source)

Node keys are Python values: `gen_graphs` keys nodes by strings
(`str(word.ID)`), while `write_graphs` compares keys with the integer `0`.
Python `==` across `int` and `str` is `False`, which the embedding makes
explicit.  Nodes and edges are kept in insertion order, as the dict-backed
networkx structures iterate them; `in_edges(key, data=True)` returns a list
(networkx 1.x), so indexing an empty result raises `IndexError`, which the
`except (StopIteration, AssertionError)` handler of `write_graphs` does not
catch. -/

inductive PyKey
  | pint (z : Int)
  | pstr (s : Str)

deriving instance DecidableEq, Repr for PyKey

/-- Python `==` on node keys: cross-type comparison is `False`. -/
def pyKeyEq : PyKey → PyKey → Bool
  | .pint a, .pint b => a = b
  | .pstr a, .pstr b => a = b
  | _, _ => false

/-- Python `str()` of a node key. -/
def pyKeyStr : PyKey → Str
  | .pint z => intToStr z
  | .pstr s => s

/-- The node attribute dict; `gen_graphs` only ever sets `label`. -/
structure NodeData where
  label : Option Str
  FORM : Option Str
  LEMMA : Option Str
  UPOSTAG : Option Str
  XPOSTAG : Option Str
  FEATS : Option Feats
  DEPS : Option Str
  MISC : Option Str

deriving instance DecidableEq, Repr for NodeData

def emptyNodeData : NodeData := ⟨none, none, none, none, none, none, none, none⟩

/-- The edge attribute dict; `gen_graphs` sets `label`, `write_graphs`
reads `DEPREL`. -/
structure EdgeData where
  label : Option Str
  DEPREL : Option Str

deriving instance DecidableEq, Repr for EdgeData

/-- A directed graph with graph-level attributes (`graph.graph`), in
insertion order.  The graph-level values set by `gen_graphs` are id
strings. -/
structure Graph where
  nodes : List (PyKey × NodeData)
  edges : List (PyKey × PyKey × EdgeData)
  gattrs : List (Str × Str)

deriving instance DecidableEq, Repr for Graph

def Graph.hasNode (g : Graph) (k : PyKey) : Bool :=
  g.nodes.any (fun nd => pyKeyEq nd.1 k)

/-- Python `graph.add_node(k, label=lab)`: update the attribute if present,
append a fresh node otherwise. -/
def addNodeLabel (g : Graph) (k : PyKey) (lab : Str) : Graph :=
  if g.hasNode k then
    let ns := g.nodes.map
      (fun nd => if pyKeyEq nd.1 k then (nd.1, { nd.2 with label := some lab }) else nd)
    { g with nodes := ns }
  else { g with nodes := g.nodes ++ [(k, { emptyNodeData with label := some lab })] }

/-- Auto-creation of an endpoint by `add_edge`, with an empty attribute
dict. -/
def ensureNode (g : Graph) (k : PyKey) : Graph :=
  if g.hasNode k then g else { g with nodes := g.nodes ++ [(k, emptyNodeData)] }

/-- Python `graph.add_edge(u, v, label=dep)`. -/
def addEdgeLabel (g : Graph) (u v : PyKey) (dep : Str) : Graph :=
  let g := ensureNode (ensureNode g u) v
  if g.edges.any (fun e => pyKeyEq e.1 u && pyKeyEq e.2.1 v) then
    let es := g.edges.map
      (fun e => if pyKeyEq e.1 u && pyKeyEq e.2.1 v then (e.1, e.2.1, { e.2.2 with label := some dep }) else e)
    { g with edges := es }
  else { g with edges := g.edges ++ [(u, v, ⟨some dep, none⟩)] }

/-- Python `graph.graph[k] = v`. -/
def setGAttr (g : Graph) (k v : Str) : Graph :=
  if g.gattrs.any (fun a => a.1 = k) then
    { g with gattrs := g.gattrs.map (fun a => if a.1 = k then (a.1, v) else a) }
  else { g with gattrs := g.gattrs ++ [(k, v)] }

/-! ### `Dataset.gen_graphs` -/

/-- The caller-configured `node_labels_type`. -/
inductive LabelsType
  | FORM
  | LEMMA
  | POS

/-- The per-sentence graph construction of `Dataset.gen_graphs`: root node
`'0'` labelled with a non-breaking space, one node per integer-id word
(label per configuration), edges `str(HEAD) → str(ID)` labelled with the
deprel unless suppressed, and non-integer ids recorded on `graph.graph`
keyed and valued by their id string. -/
def gen_graph (lt : LabelsType) (edgeless : Bool) (sent : List Word) : Graph :=
  sent.foldl (fun g w =>
      match w.ID with
      | .num n =>
        let lab := match lt with
          | .FORM => w.FORM
          | .LEMMA => w.LEMMA
          | .POS => w.UPOSTAG
        let g := addNodeLabel g (.pstr (natToStr n)) lab
        match w.HEAD with
        | .und => g
        | .num z => if edgeless then g else addEdgeLabel g (.pstr (intToStr z)) (.pstr (natToStr n)) w.DEPREL
      | .str s => setGAttr g s s)
    (addNodeLabel ⟨[], [], []⟩ (.pstr ['0']) [Char.ofNat 160])

/-! ### `Dataset.write_graphs` -/

/-- The Python exceptions that can escape the write path: the wrapped
`ConlluError` (with its message), and the uncaught `IndexError`
(empty `in_edges(...)[0]`), `KeyError` (`data['FEATS']` absent) and
`AttributeError` (`.ID` on a non-`Word` spliced into the sentence). -/
inductive PyErr
  | conlluErr (msg : Str)
  | indexErr
  | keyErr
  | attrErr

deriving instance DecidableEq, Repr for PyErr

def graphSpecMsg : Str := "Graphs do not conform to the spec".data

def wordTupleMsg : Str := "Sentences must be sequences of Word tuples".data

/-- A `Word` as reconstructed by `write_graphs`: ID and HEAD are the raw
node keys. -/
structure GWord where
  ID : PyKey
  FORM : Str
  LEMMA : Str
  UPOSTAG : Str
  XPOSTAG : Str
  FEATS : Feats
  HEAD : PyKey
  DEPREL : Str
  DEPS : Str
  MISC : Str

deriving instance DecidableEq, Repr for GWord

/-- Items of the sentence list built by `write_graphs`: reconstructed
`Word`s, plus whatever `graph.graph` values the splice loop inserts. -/
inductive SentItem
  | w (word : GWord)
  | s (val : Str)

deriving instance DecidableEq, Repr for SentItem

/-- Python `graph.in_edges(k, data=True)`: the edges whose target is `k`, in
insertion order. -/
def inEdges (g : Graph) (k : PyKey) : List (PyKey × PyKey × EdgeData) :=
  g.edges.filter (fun e => pyKeyEq e.2.1 k)

/-- The per-node body of the `write_graphs` loop: `in_edges(key)[0]` first
(IndexError when empty escapes the handler), then the three attribute
asserts (AssertionError becomes the `ConlluError`), then the `Word`
construction (`data['FEATS']` raises `KeyError` when absent). -/
def nodeToWord (g : Graph) (k : PyKey) (d : NodeData) : Except PyErr GWord :=
  match (inEdges g k).head? with
  | none => .error .indexErr
  | some (u, _, ed) =>
    match d.FORM, d.LEMMA, d.UPOSTAG with
    | some fo, some le, some up =>
      match d.FEATS with
      | none => .error .keyErr
      | some fe =>
        .ok ⟨k, fo, le, up, d.XPOSTAG.getD ['_'], fe, u,
             ed.DEPREL.getD ['_'], d.DEPS.getD ['_'], d.MISC.getD ['_']⟩
    | _, _, _ => .error (.conlluErr graphSpecMsg)

/-- The node loop of `write_graphs`: every node whose key `== 0` is the
skipped root; all other nodes are turned into words in iteration order. -/
def wgnAux (g : Graph) : List (PyKey × NodeData) → Except PyErr (List GWord)
  | [] => .ok []
  | (k, d) :: rest =>
    if pyKeyEq k (.pint 0) then wgnAux g rest
    else
      match nodeToWord g k d with
      | .error e => .error e
      | .ok w =>
        match wgnAux g rest with
        | .error e => .error e
        | .ok ws => .ok (w :: ws)

def write_graph_nodes (g : Graph) : Except PyErr (List GWord) := wgnAux g g.nodes

/-- List insertion at an index (`list.insert`). -/
def insertAt (i : Nat) (x : SentItem) : List SentItem → List SentItem
  | [] => [x]
  | y :: ys => match i with
    | 0 => x :: y :: ys
    | j + 1 => y :: insertAt j x ys

/-- The generator expression
`next(i for i, w in enumerate(sentence) if w.ID == key)` where `key` is an
`int`: items are inspected in order; a non-`Word` item raises
`AttributeError` (uncaught), exhaustion raises `StopIteration` (wrapped
into the `ConlluError`). -/
def findAnchor (key : Int) : List SentItem → Nat → Except PyErr Nat
  | [], _ => .error (.conlluErr graphSpecMsg)
  | .s _ :: _, _ => .error .attrErr
  | .w w :: rest, i =>
    if pyKeyEq w.ID (.pint key) then .ok i else findAnchor key rest (i + 1)

/-- One splice step for a `graph.graph` item: `int(key.split('-')[0])`
(ValueError is wrapped into the `ConlluError`), then the anchor lookup and
the insertion. -/
def spliceOne (items : List SentItem) (k v : Str) : Except PyErr (List SentItem) :=
  let lead := (splitChar '-' k).headD []
  if pyIntValid lead then
    match findAnchor (pyIntVal lead) items 0 with
    | .error e => .error e
    | .ok i => .ok (insertAt i (.s v) items)
  else .error (.conlluErr graphSpecMsg)

def spliceAll (items : List SentItem) : List (Str × Str) → Except PyErr (List SentItem)
  | [] => .ok items
  | (k, v) :: rest =>
    match spliceOne items k v with
    | .error e => .error e
    | .ok items2 => spliceAll items2 rest

/-- One sentence of `write_graphs`: node reconstruction followed by the
splice loop over `graph.graph.items()`. -/
def write_graph_sentence (g : Graph) : Except PyErr (List SentItem) :=
  match write_graph_nodes g with
  | .error e => .error e
  | .ok ws => spliceAll (ws.map SentItem.w) g.gattrs

def format_gword (w : GWord) : Str :=
  joinSep ['\t'] [pyKeyStr w.ID, w.FORM, w.LEMMA, w.UPOSTAG, w.XPOSTAG,
    formatFeats w.FEATS, pyKeyStr w.HEAD, w.DEPREL, w.DEPS, w.MISC]

def format_sentence_g (s : List GWord) : Str :=
  joinSep ['\n'] (s.map format_gword ++ [[], []])

/-- The writer `Dataset.write_sentences` on the heterogeneous sentences built by
`write_graphs`: the `isinstance(word, Word)` assertion fails on any spliced
non-`Word` item, yielding the wrapped `ConlluError`. -/
def write_sentences_items (ss : List (List SentItem)) : Except PyErr Str :=
  if ss.all (fun s => s.all (fun it => match it with | .w _ => true | .s _ => false)) then
    .ok ((ss.map (fun s => format_sentence_g (s.filterMap
      (fun it => match it with | .w w => some w | .s _ => none)))).flatten)
  else .error (.conlluErr wordTupleMsg)

/-- The writer `Dataset.write_graphs`: build every sentence, then write them. -/
def write_graphs (gs : List Graph) : Except PyErr Str :=
  match gs.mapM write_graph_sentence with
  | .error e => .error e
  | .ok ss => write_sentences_items ss

/-! ### Normalisation and invariants used by the round-trip statements -/

/-- The lines a formatted sentence contributes to the file: its word lines
followed by the blank separator line. -/
def sentLines (s : List Word) : List Str := s.map format_word ++ [[]]

/-- Text made of the given lines, each terminated by a newline. -/
def unlines : List Str → Str
  | [] => []
  | l :: ls => l ++ '\n' :: unlines ls

/-- Feats-ordering normalisation: entries in key order, each value set in
its canonical sorted form.  This is exactly what parsing the formatted
feats field produces. -/
def normFeats (f : Feats) : Feats :=
  (List.insertionSort pairLe f).map (fun kv => (kv.1, List.insertionSort sLe kv.2))

/-- A `Word` after feats-ordering normalisation. -/
def normWord (w : Word) : Word := { w with FEATS := normFeats w.FEATS }

/-- Field text free of the separators that would be misread back. -/
def fieldOk (x : Str) : Prop := x ≠ [] ∧ '\t' ∉ x ∧ '\n' ∉ x

instance (x : Str) : Decidable (fieldOk x) := by unfold fieldOk; infer_instance

/-- Invariant of a feats dict as `_read_word` can produce it: unique keys,
keys and values free of the feats separators, non-empty duplicate-free
value lists. -/
def FeatsInv (f : Feats) : Prop :=
  (f.map Prod.fst).Nodup ∧
  ∀ kv ∈ f,
    ('=' ∉ kv.1 ∧ '|' ∉ kv.1 ∧ '\t' ∉ kv.1 ∧ '\n' ∉ kv.1) ∧
    kv.2 ≠ [] ∧ kv.2.Nodup ∧
    ∀ v ∈ kv.2, ',' ∉ v ∧ '=' ∉ v ∧ '|' ∉ v ∧ '\t' ∉ v ∧ '\n' ∉ v

instance (f : Feats) : Decidable (FeatsInv f) := by unfold FeatsInv; infer_instance

/-- Invariant of an ID value in the image of the reader. -/
def IdInv : IdVal → Prop
  | .num _ => True
  | .str s => s ≠ [] ∧ (∀ c ∈ s, idChar c = true) ∧ isdigitStr s = false

instance (v : IdVal) : Decidable (IdInv v) := by
  cases v <;> unfold IdInv <;> infer_instance

/-- Invariant of a `Word` in the image of the reader: exactly the facts
that make its formatted line parse back (up to feats normalisation). -/
def ParsedInv (P : List Str) (w : Word) : Prop :=
  IdInv w.ID ∧
  fieldOk w.FORM ∧ fieldOk w.LEMMA ∧ fieldOk w.UPOSTAG ∧ fieldOk w.XPOSTAG ∧
  fieldOk w.DEPREL ∧ fieldOk w.DEPS ∧ fieldOk w.MISC ∧
  (w.UPOSTAG ∈ P ∨ w.UPOSTAG = ['_']) ∧
  FeatsInv w.FEATS ∧
  (∀ c, w.MISC.getLast? = some c → pySpace c = false)

instance (P : List Str) (w : Word) : Decidable (ParsedInv P w) := by
  unfold ParsedInv; exact instDecidableAnd

/-- Rendering of one feats item by `format_word`. -/
def renderKV (kv : Str × List Str) : Str :=
  kv.1 ++ '=' :: joinSep [','] (List.insertionSort sLe kv.2)

/-- Per-item facts needed to parse a rendered feats item back. -/
def KvOk (kv : Str × List Str) : Prop :=
  ('=' ∉ kv.1 ∧ '|' ∉ kv.1) ∧ kv.2 ≠ [] ∧ kv.2.Nodup ∧
  ∀ v ∈ kv.2, ',' ∉ v ∧ '=' ∉ v ∧ '|' ∉ v

/-- The ten fields rendered by `format_word`, before tab-joining. -/
def wordFields (w : Word) : List Str :=
  [idStr w.ID, w.FORM, w.LEMMA, w.UPOSTAG, w.XPOSTAG,
   formatFeats w.FEATS, headStr w.HEAD, w.DEPREL, w.DEPS, w.MISC]

/-- All the lines the formatted sentences contribute, in order. -/
def allLines (S : List (List Word)) : List Str := (S.map sentLines).flatten

/-- The `doc_sent_name`s `gen_sentences` produces for `k` consecutive
sentences starting from the given pending-id state. -/
def genNames (d sd : IdState) (cnt : Nat) : Nat → List Str
  | 0 => []
  | k + 1 =>
    let d' := if d = .strv [] then .natv 0 else d
    let sd' := if sd = .strv [] then .natv cnt else sd
    (idStateStr d' ++ '_' :: idStateStr sd') :: genNames d' sd' (cnt + 1) k

/-! ### The spec-side failure condition of claim C6

Modelled from the specification's words (a refinement comparison): the
line parser fails exactly on (i) not 10 non-empty fields, (ii) an id that
is neither a positive integer nor made of digits, `-`, `.`, (iii) an upos
outside the configured tag set and distinct from `_`, (iv) malformed
feats.  Compared below against the failure condition of the source. -/

def tenFieldsOk (line : List Str) : Prop := line.length = 10 ∧ ∀ f ∈ line, f ≠ []

instance (line : List Str) : Decidable (tenFieldsOk line) := by
  unfold tenFieldsOk; infer_instance

def badIdField (f0 : Str) : Prop :=
  ¬ (isdigitStr f0 = true ∧ 1 ≤ parseNat f0) ∧ ¬ (f0 ≠ [] ∧ ∀ c ∈ f0, idChar c = true)

instance (f0 : Str) : Decidable (badIdField f0) := by unfold badIdField; infer_instance

def badUposField (P : List Str) (f3 : Str) : Prop := f3 ∉ P ∧ f3 ≠ ['_']

instance (P : List Str) (f3 : Str) : Decidable (badUposField P f3) := by
  unfold badUposField; infer_instance

def badFeatsField (f5 : Str) : Prop :=
  f5 ≠ ['_'] ∧ ∃ part ∈ splitChar '|' f5, (splitChar '=' part).length ≠ 2

instance (f5 : Str) : Decidable (badFeatsField f5) := by
  unfold badFeatsField; infer_instance

/-- The four failure causes claimed by the specification for `parse_line`. -/
def specParseFailure (P : List Str) (line : List Str) : Prop :=
  ¬ tenFieldsOk line ∨ badIdField (line.getD 0 []) ∨
  badUposField P (line.getD 3 []) ∨ badFeatsField (line.getD 5 [])

instance (P : List Str) (line : List Str) : Decidable (specParseFailure P line) := by
  unfold specParseFailure; infer_instance

/-- The head-field failure the source additionally exhibits:
`int(line[6])` raising `ValueError`. -/
def badHeadField (f6 : Str) : Prop := f6 ≠ ['_'] ∧ pyIntValid f6 = false

instance (f6 : Str) : Decidable (badHeadField f6) := by
  unfold badHeadField; infer_instance

/-- The structural violation `gen_sentences` detects at one (stripped)
line: a comment line whose matching configured marker is empty, or a
non-blank data line rejected by `_read_word`. -/
def violatingLine (P : List Str) (dp sp : Str) (l : Str) : Prop :=
  (pyStrip l).head? = some '#' ∧
    (∀ d sd, commentUpdate dp sp (pyStrip l) d sd = .error ()) ∨
  (pyStrip l).head? ≠ some '#' ∧ pyStrip l ≠ [] ∧
    read_word P (splitChar '\t' (pyStrip l)) = .error ()

/-! ### Concrete inputs used by the claim theorems -/

/-- The line `1\tThe\tthe\tDET\t_\t_\t2\tdet\t_\t_` parsed. -/
def exWord1 : Word :=
  ⟨.num 1, "The".data, "the".data, "DET".data, "_".data, [],
   .num 2, "det".data, "_".data, "_".data⟩

/-- The line `2\tdog\tdog\tNOUN\t_\t_\t0\troot\t_\t_` parsed. -/
def exWord2 : Word :=
  ⟨.num 2, "dog".data, "dog".data, "NOUN".data, "_".data, [],
   .num 0, "root".data, "_".data, "_".data⟩

/-- The two-token example sentence of the specification. -/
def exSentence : List Word := [exWord1, exWord2]

/-- A node carrying the full attribute set required by `write_graphs`. -/
def fullNode (fo le up : Str) : NodeData :=
  ⟨none, some fo, some le, some up, none, some [], none, none⟩

/-- A graph whose single non-root-keyed node has no incoming edge. -/
def gNoInEdge : Graph := ⟨[(.pstr "1".data, fullNode "a".data "a".data "X".data)], [], []⟩

/-- A graph in which node `"1"` has two incoming edges; every node carries
the required attributes and at least one incoming edge. -/
def gTwoInEdges : Graph :=
  ⟨[(.pstr "1".data, fullNode "a".data "a".data "X".data),
    (.pstr "2".data, fullNode "b".data "b".data "Y".data)],
   [(.pstr "2".data, .pstr "1".data, ⟨none, some "r1".data⟩),
    (.pstr "1".data, .pstr "1".data, ⟨none, some "r2".data⟩),
    (.pstr "1".data, .pstr "2".data, ⟨none, some "r3".data⟩)], []⟩

/-- A graph with one node that has an incoming edge but no `FORM`. -/
def gNoForm : Graph :=
  ⟨[(.pstr "1".data, ⟨none, none, some "a".data, some "X".data, none, some [], none, none⟩)],
   [(.pstr "1".data, .pstr "1".data, ⟨none, none⟩)], []⟩

/-- An accepted graph whose nodes were inserted in the order `"2"`, `"1"`. -/
def gOutOfOrder : Graph :=
  ⟨[(.pstr "2".data, fullNode "b".data "b".data "Y".data),
    (.pstr "1".data, fullNode "a".data "a".data "X".data)],
   [(.pstr "1".data, .pstr "2".data, ⟨none, none⟩),
    (.pstr "2".data, .pstr "1".data, ⟨none, none⟩)], []⟩

/-- The specification's multiword example: span `3-4` with tokens 3 and 4. -/
def mwWord : Word :=
  ⟨.str "3-4".data, "gonna".data, "_".data, "_".data, "_".data, [],
   .und, "_".data, "_".data, "_".data⟩

def mwWord3 : Word :=
  ⟨.num 3, "gon".data, "go".data, "VERB".data, "_".data, [],
   .num 0, "root".data, "_".data, "_".data⟩

def mwWord4 : Word :=
  ⟨.num 4, "na".data, "to".data, "PART".data, "_".data, [],
   .num 3, "mark".data, "_".data, "_".data⟩

def mwSentence : List Word := [mwWord, mwWord3, mwWord4]

/-- A well-shaped hand-built graph carrying the multiword annotation and
its anchor token 3 (string-keyed nodes, as `gen_graphs` produces them). -/
def gMultiword : Graph :=
  ⟨[(.pstr "3".data, fullNode "gon".data "go".data "VERB".data),
    (.pstr "4".data, fullNode "na".data "to".data "PART".data)],
   [(.pstr "4".data, .pstr "3".data, ⟨none, none⟩),
    (.pstr "3".data, .pstr "4".data, ⟨none, none⟩)],
   [("3-4".data, "3-4".data)]⟩

/-- Numeric reading of a node key, for stating the ordering claim. -/
def keyNumD (k : PyKey) : Int :=
  match k with
  | .pint z => z
  | .pstr s => if pyIntValid s then pyIntVal s else 0

/-- Strictly ascending numeric order over node keys. -/
def keysAscB : List PyKey → Bool
  | [] => true
  | [_] => true
  | a :: b :: r => (decide (keyNumD a < keyNumD b)) && keysAscB (b :: r)

/-- Ascending numeric order over node keys. -/
def keysAscending (ks : List PyKey) : Prop := keysAscB ks = true

instance (ks : List PyKey) : Decidable (keysAscending ks) :=
  inferInstanceAs (Decidable (keysAscB ks = true))

/-- Ascending numeric id order over reconstructed words. -/
def idsAscending (ws : List GWord) : Prop :=
  keysAscending (ws.map GWord.ID)

instance (ws : List GWord) : Decidable (idsAscending ws) :=
  inferInstanceAs (Decidable (keysAscB (ws.map GWord.ID) = true))

/-- The line on which claim C6's four conditions all hold yet the source
parser fails: a head field `int()` cannot read. -/
def badHeadLine : List Str :=
  ["1".data, "a".data, "a".data, "_".data, "_".data, "_".data,
   "xx".data, "r".data, "_".data, "_".data]

/-- A minimal well-formed word line as raw text. -/
def plainLine : Str := "1\tw\tw\t_\t_\t_\t_\t_\t_\t_".data

/-- The line `plainLine` parsed. -/
def plainWord : Word :=
  ⟨.num 1, "w".data, "w".data, "_".data, "_".data, [], .und,
   "_".data, "_".data, "_".data⟩

/-- Another well-formed word line as raw text. -/
def plainLine2 : Str := "1\tv\tv\t_\t_\t_\t_\t_\t_\t_".data

/-- The line `plainLine2` parsed. -/
def plainWord2 : Word :=
  ⟨.num 1, "v".data, "v".data, "_".data, "_".data, [], .und,
   "_".data, "_".data, "_".data⟩

/-- Two sentences, no comment lines: input for the naming claim. -/
def twoSentLines : List Str := [plainLine, [], plainLine2, []]

/-! ## Lemmas about splitting and joining -/

theorem splitChar_ne_nil (c : Char) (s : Str) : splitChar c s ≠ [] := by
  induction s with
  | nil => simp [splitChar]
  | cons x xs ih =>
    simp only [splitChar]
    cases h : splitChar c xs with
    | nil => simp
    | cons p ps => by_cases hx : x = c <;> simp [hx]

theorem not_sep_of_mem_splitChar {c : Char} {s : Str} {p : Str}
    (hp : p ∈ splitChar c s) : c ∉ p := by
  induction s generalizing p with
  | nil => simp [splitChar] at hp; simp [hp]
  | cons x xs ih =>
    simp only [splitChar] at hp
    cases h : splitChar c xs with
    | nil => exact absurd h (splitChar_ne_nil c xs)
    | cons q qs =>
      rw [h] at hp
      by_cases hx : x = c
      · simp only [hx, if_pos rfl] at hp
        rcases List.mem_cons.mp hp with h1 | h1
        · simp [h1]
        · exact ih (h ▸ h1)
      · simp only [if_neg hx] at hp
        rcases List.mem_cons.mp hp with h1 | h1
        · subst h1
          intro hmem
          rcases List.mem_cons.mp hmem with h2 | h2
          · exact hx h2.symm
          · exact ih (h ▸ List.mem_cons_self q qs) h2
        · exact ih (h ▸ List.mem_cons_of_mem q h1)

theorem mem_of_mem_splitChar {c a : Char} {s : Str} {p : Str}
    (hp : p ∈ splitChar c s) (ha : a ∈ p) : a ∈ s := by
  induction s generalizing p with
  | nil => simp [splitChar] at hp; subst hp; simp at ha
  | cons x xs ih =>
    simp only [splitChar] at hp
    cases h : splitChar c xs with
    | nil => exact absurd h (splitChar_ne_nil c xs)
    | cons q qs =>
      rw [h] at hp
      by_cases hx : x = c
      · simp only [hx, if_pos rfl] at hp
        rcases List.mem_cons.mp hp with h1 | h1
        · subst h1; simp at ha
        · exact List.mem_cons_of_mem x (ih (h ▸ h1) ha)
      · simp only [if_neg hx] at hp
        rcases List.mem_cons.mp hp with h1 | h1
        · subst h1
          rcases List.mem_cons.mp ha with h2 | h2
          · exact h2 ▸ List.mem_cons_self x xs
          · exact List.mem_cons_of_mem x (ih (h ▸ List.mem_cons_self q qs) h2)
        · exact List.mem_cons_of_mem x (ih (h ▸ List.mem_cons_of_mem q h1) ha)

theorem splitChar_eq_single {c : Char} {s : Str} (h : c ∉ s) :
    splitChar c s = [s] := by
  induction s with
  | nil => simp [splitChar]
  | cons x xs ih =>
    have hx : x ≠ c := fun he => h (he ▸ List.mem_cons_self x xs)
    have hxs : c ∉ xs := fun hm => h (List.mem_cons_of_mem x hm)
    simp only [splitChar, ih hxs, if_neg hx]

theorem splitChar_append_cons {c : Char} {s r : Str} (h : c ∉ s) :
    splitChar c (s ++ c :: r) = s :: splitChar c r := by
  induction s with
  | nil =>
    simp only [List.nil_append, splitChar]
    cases hr : splitChar c r with
    | nil => exact absurd hr (splitChar_ne_nil c r)
    | cons q qs => simp
  | cons x xs ih =>
    have hx : x ≠ c := fun he => h (he ▸ List.mem_cons_self x xs)
    have hxs : c ∉ xs := fun hm => h (List.mem_cons_of_mem x hm)
    simp only [List.cons_append, splitChar, if_neg hx]
    rw [List.append_eq, ih hxs]

theorem joinSep_cons_cons (sep : Str) (x : Char) (p : Str) (ps : List Str) :
    joinSep sep ((x :: p) :: ps) = x :: joinSep sep (p :: ps) := by
  cases ps with
  | nil => simp [joinSep]
  | cons q qs => simp [joinSep]

theorem joinSep_splitChar (c : Char) (s : Str) :
    joinSep [c] (splitChar c s) = s := by
  induction s with
  | nil => simp [splitChar, joinSep]
  | cons x xs ih =>
    simp only [splitChar]
    cases h : splitChar c xs with
    | nil => exact absurd h (splitChar_ne_nil c xs)
    | cons p ps =>
      rw [h] at ih
      by_cases hx : x = c
      · subst hx
        simp only [if_pos rfl, joinSep]
        cases ps <;> simp_all [joinSep]
      · simp only [if_neg hx, joinSep_cons_cons, ih]

theorem splitChar_joinSep {c : Char} {ss : List Str} (hne : ss ≠ [])
    (h : ∀ p ∈ ss, c ∉ p) : splitChar c (joinSep [c] ss) = ss := by
  induction ss with
  | nil => exact absurd rfl hne
  | cons s ts ih =>
    cases ts with
    | nil =>
      simp only [joinSep]
      exact splitChar_eq_single (h s (List.mem_cons_self s []))
    | cons t tr =>
      have hs : c ∉ s := h s (List.mem_cons_self s _)
      have hrest : ∀ p ∈ t :: tr, c ∉ p := fun p hp => h p (List.mem_cons_of_mem s hp)
      have : joinSep [c] (s :: t :: tr) = s ++ c :: joinSep [c] (t :: tr) := by
        simp [joinSep]
      rw [this, splitChar_append_cons hs, ih (by simp) hrest]

theorem mem_joinSep {sep : Str} {L : List Str} {a : Char}
    (ha : a ∈ joinSep sep L) : a ∈ sep ∨ ∃ l ∈ L, a ∈ l := by
  induction L with
  | nil => simp [joinSep] at ha
  | cons s ts ih =>
    cases ts with
    | nil =>
      simp only [joinSep] at ha
      exact Or.inr ⟨s, List.mem_cons_self s [], ha⟩
    | cons t tr =>
      simp only [joinSep] at ha
      rcases List.mem_append.mp ha with h1 | h1
      · rcases List.mem_append.mp h1 with h2 | h2
        · exact Or.inr ⟨s, List.mem_cons_self s _, h2⟩
        · exact Or.inl h2
      · rcases ih h1 with h2 | ⟨l, hl, hal⟩
        · exact Or.inl h2
        · exact Or.inr ⟨l, List.mem_cons_of_mem s hl, hal⟩

theorem mem_joinSep_of_mem {sep : Str} {L : List Str} {l : Str} {a : Char}
    (hl : l ∈ L) (ha : a ∈ l) : a ∈ joinSep sep L := by
  induction L with
  | nil => simp at hl
  | cons s ts ih =>
    cases ts with
    | nil =>
      simp only [joinSep]
      rcases List.mem_cons.mp hl with h1 | h1
      · exact h1 ▸ ha
      · simp at h1
    | cons t tr =>
      simp only [joinSep]
      rcases List.mem_cons.mp hl with h1 | h1
      · exact List.mem_append.mpr (Or.inl (List.mem_append.mpr (Or.inl (h1 ▸ ha))))
      · exact List.mem_append.mpr (Or.inr (ih h1))

theorem joinSep_head? {sep : Str} {l : Str} (L : List Str) (hl : l ≠ []) :
    (joinSep sep (l :: L)).head? = l.head? := by
  cases L with
  | nil => simp [joinSep]
  | cons t tr =>
    simp only [joinSep]
    cases l with
    | nil => exact absurd rfl hl
    | cons x xs => simp

theorem joinSep_getLast? {sep : Str} {m : Str} (L : List Str) (hm : m ≠ []) :
    (joinSep sep (L ++ [m])).getLast? = m.getLast? := by
  induction L with
  | nil => simp [joinSep]
  | cons s ts ih =>
    have hne : joinSep sep (ts ++ [m]) ≠ [] := by
      intro h0
      have := ih
      rw [h0] at this
      simp only [List.getLast?_nil] at this
      cases m with
      | nil => exact hm rfl
      | cons y ys => rw [List.getLast?_eq_getLast _ (by simp)] at this; simp at this
    have : (s :: ts) ++ [m] = s :: (ts ++ [m]) := by simp
    rw [this]
    cases hts : ts ++ [m] with
    | nil => simp at hts
    | cons u ur =>
      simp only [joinSep]
      rw [← hts]
      rw [List.getLast?_append_of_ne_nil]
      · exact ih
      · exact hne

/-! ## Character-class lemmas -/

theorem pySpace_cases {c : Char} (h : pySpace c = true) :
    c = ' ' ∨ c = '\t' ∨ c = '\n' ∨ c = '\x0d' ∨ c = '\x0b' ∨ c = '\x0c' := by
  unfold pySpace at h
  simp only [Bool.or_eq_true, decide_eq_true_eq] at h
  tauto

theorem isDigit_facts {c : Char} (h : c.isDigit = true) :
    pySpace c = false ∧ c ≠ '#' ∧ c ≠ '-' ∧ c ≠ '+' ∧ c ≠ '_' ∧ c ≠ '\t' ∧
    c ≠ '\n' ∧ c ≠ '|' ∧ c ≠ '=' ∧ c ≠ ',' := by
  refine ⟨?_, ?_, ?_, ?_, ?_, ?_, ?_, ?_, ?_, ?_⟩
  · by_contra hc
    have hp : pySpace c = true := by revert hc; cases pySpace c <;> simp
    rcases pySpace_cases hp with rfl|rfl|rfl|rfl|rfl|rfl <;> exact absurd h (by decide)
  all_goals intro hc; subst hc; exact absurd h (by decide)

theorem idChar_cases {c : Char} (h : idChar c = true) :
    c.isDigit = true ∨ c = '-' ∨ c = '.' := by
  unfold idChar at h
  simp only [Bool.or_eq_true, decide_eq_true_eq] at h
  tauto

theorem idChar_facts {c : Char} (h : idChar c = true) :
    pySpace c = false ∧ c ≠ '#' ∧ c ≠ '\t' ∧ c ≠ '\n' := by
  rcases idChar_cases h with hd | rfl | rfl
  · have := isDigit_facts hd
    exact ⟨this.1, this.2.1, this.2.2.2.2.2.1, this.2.2.2.2.2.2.1⟩
  · exact ⟨by decide, by decide, by decide, by decide⟩
  · exact ⟨by decide, by decide, by decide, by decide⟩

/-! ## Decimal rendering -/

theorem natDigitsAux_eq {fuel n : Nat} (h : n ≤ fuel) :
    natDigitsAux fuel n = (Nat.digits 10 n).map digChar := by
  induction fuel generalizing n with
  | zero =>
    have : n = 0 := by omega
    subst this
    simp [natDigitsAux]
  | succ fuel ih =>
    cases n with
    | zero => simp [natDigitsAux]
    | succ m =>
      have h2 : (m + 1) / 10 < m + 1 := Nat.div_lt_self (by omega) (by omega)
      have hdiv : (m + 1) / 10 ≤ fuel := by omega
      rw [show natDigitsAux (fuel + 1) (m + 1) =
        digChar ((m + 1) % 10) :: natDigitsAux fuel ((m + 1) / 10) from rfl]
      rw [Nat.digits_def' (b := 10) (by norm_num) (by omega), List.map_cons]
      rw [ih hdiv]

theorem natToStr_eq_digits (n : Nat) :
    natToStr n = if n = 0 then ['0'] else ((Nat.digits 10 n).map digChar).reverse := by
  unfold natToStr
  by_cases h : n = 0
  · rw [if_pos h, if_pos h]
  · rw [if_neg h, if_neg h, natDigitsAux_eq (Nat.le_refl n)]

theorem digChar_isDigit {d : Nat} (h : d < 10) : (digChar d).isDigit = true := by
  interval_cases d <;> decide

theorem digChar_toNat {d : Nat} (h : d < 10) : (digChar d).toNat - 48 = d := by
  interval_cases d <;> decide

theorem parseNat_append_digit (s : Str) (c : Char) :
    parseNat (s ++ [c]) = 10 * parseNat s + (c.toNat - 48) := by
  unfold parseNat
  rw [List.foldl_append]
  rfl

theorem parseNat_rev_digits (l : List Nat) (h : ∀ d ∈ l, d < 10) :
    parseNat ((l.map digChar).reverse) = Nat.ofDigits 10 l := by
  induction l with
  | nil => rfl
  | cons d ds ih =>
    have hd : d < 10 := h d (List.mem_cons_self d ds)
    have hds : ∀ x ∈ ds, x < 10 := fun x hx => h x (List.mem_cons_of_mem d hx)
    simp only [List.map_cons, List.reverse_cons]
    rw [parseNat_append_digit, ih hds, digChar_toNat hd, Nat.ofDigits_cons]
    ring

theorem parseNat_natToStr (n : Nat) : parseNat (natToStr n) = n := by
  rw [natToStr_eq_digits]
  by_cases h : n = 0
  · subst h; decide
  · rw [if_neg h, parseNat_rev_digits _ (fun d hd => Nat.digits_lt_base (by norm_num) hd)]
    exact Nat.ofDigits_digits 10 n

theorem natToStr_ne_nil (n : Nat) : natToStr n ≠ [] := by
  rw [natToStr_eq_digits]
  by_cases h : n = 0
  · simp [h]
  · rw [if_neg h]
    simp only [ne_eq, List.reverse_eq_nil_iff, List.map_eq_nil_iff]
    exact Nat.digits_ne_nil_iff_ne_zero.mpr h

theorem natToStr_all_digit {n : Nat} {c : Char} (hc : c ∈ natToStr n) :
    c.isDigit = true := by
  rw [natToStr_eq_digits] at hc
  by_cases h : n = 0
  · rw [if_pos h] at hc
    simp only [List.mem_singleton] at hc
    subst hc; decide
  · rw [if_neg h, List.mem_reverse, List.mem_map] at hc
    obtain ⟨d, hd, rfl⟩ := hc
    exact digChar_isDigit (Nat.digits_lt_base (by norm_num) hd)

theorem isdigitStr_natToStr (n : Nat) : isdigitStr (natToStr n) = true := by
  unfold isdigitStr
  rw [Bool.and_eq_true]
  constructor
  · cases h : natToStr n with
    | nil => exact absurd h (natToStr_ne_nil n)
    | cons x xs => simp [List.isEmpty]
  · rw [List.all_eq_true]
    exact fun c hc => natToStr_all_digit hc

/-! ## `pyStrip` lemmas -/

theorem dropWhile_head_false {p : Char → Bool} {l : Str} {c : Char}
    (h : (l.dropWhile p).head? = some c) : p c = false := by
  induction l with
  | nil => simp [List.dropWhile] at h
  | cons x xs ih =>
    by_cases hx : p x
    · rw [List.dropWhile_cons_of_pos hx] at h
      exact ih h
    · rw [List.dropWhile_cons_of_neg hx] at h
      simp only [List.head?_cons, Option.some.injEq] at h
      subst h
      exact Bool.eq_false_iff.mpr hx

theorem pyStrip_eq_self {s : Str}
    (h1 : ∀ c, s.head? = some c → pySpace c = false)
    (h2 : ∀ c, s.getLast? = some c → pySpace c = false) : pyStrip s = s := by
  unfold pyStrip
  have hd : s.dropWhile pySpace = s := by
    cases s with
    | nil => rfl
    | cons x xs =>
      rw [List.dropWhile_cons_of_neg]
      rw [h1 x (by simp)]
      simp
  rw [hd]
  have hr : s.reverse.dropWhile pySpace = s.reverse := by
    cases hs : s.reverse with
    | nil => rfl
    | cons x xs =>
      rw [List.dropWhile_cons_of_neg]
      have : s.getLast? = some x := by
        rw [← List.head?_reverse, hs]; rfl
      rw [h2 x this]
      simp
  rw [hr, List.reverse_reverse]

theorem pyStrip_head_not_space {s : Str} {c : Char}
    (h : (pyStrip s).head? = some c) : pySpace c = false := by
  unfold pyStrip at h
  rw [List.head?_reverse] at h
  have hsuf : (List.dropWhile pySpace (s.dropWhile pySpace).reverse) <:+
      (s.dropWhile pySpace).reverse := List.dropWhile_suffix pySpace
  obtain ⟨u, hu⟩ := hsuf
  have hne : List.dropWhile pySpace (s.dropWhile pySpace).reverse ≠ [] := by
    intro h0; rw [h0] at h; simp at h
  have h3 : ((s.dropWhile pySpace).reverse).getLast? = some c := by
    rw [← hu, List.getLast?_append_of_ne_nil u hne]; exact h
  rw [List.getLast?_reverse] at h3
  exact dropWhile_head_false h3

theorem pyStrip_getLast_not_space {s : Str} {c : Char}
    (h : (pyStrip s).getLast? = some c) : pySpace c = false := by
  unfold pyStrip at h
  rw [List.getLast?_reverse] at h
  exact dropWhile_head_false h

/-! ## Python `int()` on canonical integer strings -/

theorem digitsUS_of_digits {s : Str} (h : ∀ c ∈ s, c.isDigit = true) :
    digitsUS s = true := by
  induction s with
  | nil => rfl
  | cons x r ih =>
    have hx : x.isDigit = true := h x (List.mem_cons_self x r)
    have hr : ∀ c ∈ r, c.isDigit = true := fun c hc => h c (List.mem_cons_of_mem x hc)
    unfold digitsUS
    rw [if_neg (isDigit_facts hx).2.2.2.2.1, hx, ih hr]
    rfl

theorem filter_underscore_of_digits {s : Str} (h : ∀ c ∈ s, c.isDigit = true) :
    s.filter (fun x => x ≠ '_') = s := by
  apply List.filter_eq_self.mpr
  intro a ha
  simp only [ne_eq, decide_eq_true_eq]
  exact (isDigit_facts (h a ha)).2.2.2.2.1

theorem pyStrip_natToStr (n : Nat) : pyStrip (natToStr n) = natToStr n := by
  apply pyStrip_eq_self
  · intro c hc
    exact (isDigit_facts (natToStr_all_digit (List.mem_of_mem_head? hc))).1
  · intro c hc
    exact (isDigit_facts (natToStr_all_digit (List.mem_of_mem_getLast? hc))).1

theorem pyStrip_intToStr (z : Int) : pyStrip (intToStr z) = intToStr z := by
  unfold intToStr
  by_cases h : z < 0
  · rw [if_pos h]
    apply pyStrip_eq_self
    · intro c hc
      simp only [List.head?_cons, Option.some.injEq] at hc
      subst hc; decide
    · intro c hc
      have : ('-' :: natToStr z.natAbs) = ['-'] ++ natToStr z.natAbs := rfl
      rw [this, List.getLast?_append_of_ne_nil _ (natToStr_ne_nil _)] at hc
      exact (isDigit_facts (natToStr_all_digit (List.mem_of_mem_getLast? hc))).1
  · rw [if_neg h]
    exact pyStrip_natToStr _

theorem pyIntValidCore_cons (c : Char) (r : Str) :
    pyIntValidCore (c :: r) =
      if c = '-' || c = '+' then
        match r with
        | [] => false
        | c2 :: r2 => c2.isDigit && digitsUS r2
      else c.isDigit && digitsUS r := rfl

theorem pyIntValCore_cons (c : Char) (r : Str) :
    pyIntValCore (c :: r) =
      if c = '-' then - (parseNat (r.filter (fun x => x ≠ '_')) : Int)
      else if c = '+' then (parseNat (r.filter (fun x => x ≠ '_')) : Int)
      else (parseNat ((c :: r).filter (fun x => x ≠ '_')) : Int) := rfl

theorem pyIntValidCore_digits {s : Str} (hne : s ≠ [])
    (h : ∀ c ∈ s, c.isDigit = true) : pyIntValidCore s = true := by
  cases s with
  | nil => exact absurd rfl hne
  | cons c r =>
    have hc : c.isDigit = true := h c (List.mem_cons_self c r)
    have hr : ∀ x ∈ r, x.isDigit = true := fun x hx => h x (List.mem_cons_of_mem c hx)
    have hfacts := isDigit_facts hc
    rw [pyIntValidCore_cons]
    rw [if_neg (by simp [hfacts.2.2.1, hfacts.2.2.2.1])]
    rw [hc, digitsUS_of_digits hr]
    rfl

theorem pyIntValid_intToStr (z : Int) : pyIntValid (intToStr z) = true := by
  unfold pyIntValid
  rw [pyStrip_intToStr]
  unfold intToStr
  by_cases h : z < 0
  · rw [if_pos h]
    cases hn : natToStr z.natAbs with
    | nil => exact absurd hn (natToStr_ne_nil _)
    | cons c2 r2 =>
      have hc2 : c2.isDigit = true := natToStr_all_digit (hn ▸ List.mem_cons_self c2 r2)
      have hr2 : ∀ c ∈ r2, c.isDigit = true := fun c hc =>
        natToStr_all_digit (hn ▸ List.mem_cons_of_mem c2 hc)
      rw [pyIntValidCore_cons]
      rw [if_pos (by decide)]
      show (c2.isDigit && digitsUS r2) = true
      rw [hc2, digitsUS_of_digits hr2]
      rfl
  · rw [if_neg h]
    exact pyIntValidCore_digits (natToStr_ne_nil _) (fun c hc => natToStr_all_digit hc)

theorem pyIntValCore_digits {s : Str} (hne : s ≠ [])
    (h : ∀ c ∈ s, c.isDigit = true) : pyIntValCore s = (parseNat s : Int) := by
  cases s with
  | nil => exact absurd rfl hne
  | cons c r =>
    have hc : c.isDigit = true := h c (List.mem_cons_self c r)
    have hfacts := isDigit_facts hc
    rw [pyIntValCore_cons]
    rw [if_neg hfacts.2.2.1, if_neg hfacts.2.2.2.1, filter_underscore_of_digits h]

theorem pyIntVal_intToStr (z : Int) : pyIntVal (intToStr z) = z := by
  unfold pyIntVal
  rw [pyStrip_intToStr]
  unfold intToStr
  by_cases h : z < 0
  · rw [if_pos h]
    have hall : ∀ c ∈ natToStr z.natAbs, c.isDigit = true := fun c hc => natToStr_all_digit hc
    rw [pyIntValCore_cons]
    rw [if_pos rfl, filter_underscore_of_digits hall, parseNat_natToStr]
    omega
  · rw [if_neg h]
    rw [pyIntValCore_digits (natToStr_ne_nil _) (fun c hc => natToStr_all_digit hc)]
    rw [parseNat_natToStr]
    omega

theorem intToStr_ne_underscore (z : Int) : intToStr z ≠ ['_'] := by
  unfold intToStr
  by_cases h : z < 0
  · rw [if_pos h]; intro hc; simp at hc
  · rw [if_neg h]
    intro hc
    have : ('_' : Char).isDigit = true :=
      natToStr_all_digit (hc ▸ List.mem_cons_self '_' [])
    exact absurd this (by decide)

theorem fieldOk_natToStr (n : Nat) : fieldOk (natToStr n) := by
  refine ⟨natToStr_ne_nil n, ?_, ?_⟩ <;> intro hm
  · exact absurd (natToStr_all_digit hm) (by decide)
  · exact absurd (natToStr_all_digit hm) (by decide)

theorem fieldOk_intToStr (z : Int) : fieldOk (intToStr z) := by
  unfold intToStr
  by_cases h : z < 0
  · rw [if_pos h]
    refine ⟨by simp, ?_, ?_⟩ <;> intro hm <;> rcases List.mem_cons.mp hm with h1 | h1
    · exact absurd h1 (by decide)
    · exact absurd (natToStr_all_digit h1) (by decide)
    · exact absurd h1 (by decide)
    · exact absurd (natToStr_all_digit h1) (by decide)
  · rw [if_neg h]; exact fieldOk_natToStr _

/-! ## The string order used by `sorted` -/

theorem strLe_total (a b : Str) : strLe a b = true ∨ strLe b a = true := by
  induction a generalizing b with
  | nil => left; rfl
  | cons x xs ih =>
    cases b with
    | nil => right; rfl
    | cons y ys =>
      rcases lt_trichotomy x y with h | h | h
      · left; simp [strLe, h]
      · subst h
        rcases ih ys with h1 | h1
        · left; simp [strLe, lt_irrefl, h1]
        · right; simp [strLe, lt_irrefl, h1]
      · right; simp [strLe, h]

theorem strLe_trans {a b c : Str} (h1 : strLe a b = true) (h2 : strLe b c = true) :
    strLe a c = true := by
  induction a generalizing b c with
  | nil => rfl
  | cons x xs ih =>
    cases b with
    | nil => simp [strLe] at h1
    | cons y ys =>
      cases c with
      | nil => simp [strLe] at h2
      | cons z zs =>
        simp only [strLe] at h1 h2 ⊢
        by_cases hxy : x < y
        · by_cases hyz : y < z
          · rw [if_pos (lt_trans hxy hyz)]
          · simp only [if_neg hyz] at h2
            by_cases hzy : z < y
            · simp only [if_pos hzy] at h2; exact absurd h2 (by simp)
            · have : y = z := le_antisymm (not_lt.mp hzy) (not_lt.mp hyz)
              subst this
              rw [if_pos hxy]
        · simp only [if_neg hxy] at h1
          by_cases hyx : y < x
          · simp only [if_pos hyx] at h1; exact absurd h1 (by simp)
          · have hxy2 : x = y := le_antisymm (not_lt.mp hyx) (not_lt.mp hxy)
            subst hxy2
            simp only [if_neg (lt_irrefl x)] at h1
            by_cases hxz : x < z
            · rw [if_pos hxz]
            · simp only [if_neg hxz] at h2 ⊢
              by_cases hzx : z < x
              · simp only [if_pos hzx] at h2; exact absurd h2 (by simp)
              · simp only [if_neg hzx] at h2 ⊢
                exact ih h1 h2

instance : IsTotal Str sLe := ⟨strLe_total⟩

instance : IsTrans Str sLe := ⟨fun _ _ _ => strLe_trans⟩

instance : IsTotal (Str × List Str) pairLe := ⟨fun a b => strLe_total a.1 b.1⟩

instance : IsTrans (Str × List Str) pairLe := ⟨fun _ _ _ => strLe_trans⟩

theorem insertionSort_sLe_idem (l : List Str) :
    List.insertionSort sLe (List.insertionSort sLe l) = List.insertionSort sLe l :=
  (List.sorted_insertionSort sLe l).insertionSort_eq

theorem insertionSort_pairLe_idem (l : Feats) :
    List.insertionSort pairLe (List.insertionSort pairLe l) = List.insertionSort pairLe l :=
  (List.sorted_insertionSort pairLe l).insertionSort_eq

/-! ## Feats round trip -/

theorem setCanon_of_sorted_nodup {l : List Str}
    (hs : List.Sorted sLe l) (hn : l.Nodup) : setCanon l = l := by
  unfold setCanon
  rw [List.dedup_eq_self.mpr hn]
  exact hs.insertionSort_eq

theorem dictInsert_append_fresh {d : Feats} {k : Str} (v : List Str)
    (h : k ∉ d.map Prod.fst) : dictInsert d k v = d ++ [(k, v)] := by
  induction d with
  | nil => rfl
  | cons kv rest ih =>
    have hk : kv.1 ≠ k := by
      intro he
      exact h (List.mem_map.mpr ⟨kv, List.mem_cons_self kv rest, he⟩)
    have hrest : k ∉ rest.map Prod.fst := by
      intro hm
      rcases List.mem_map.mp hm with ⟨kv2, hkv2, he⟩
      exact h (List.mem_map.mpr ⟨kv2, List.mem_cons_of_mem kv hkv2, he⟩)
    cases kv with
    | mk k0 v0 =>
      simp only [dictInsert, if_neg hk, List.cons_append]
      rw [ih hrest]

theorem formatFeats_eq_joinSep (f : Feats) (h : f ≠ []) :
    formatFeats f = joinSep ['|'] ((List.insertionSort pairLe f).map renderKV) := by
  unfold formatFeats renderKV
  rw [if_neg h]

theorem kvOk_of_featsInv {f : Feats} (hf : FeatsInv f) {kv : Str × List Str}
    (hkv : kv ∈ f) : KvOk kv := by
  obtain ⟨-, hall⟩ := hf
  obtain ⟨⟨h1, h2, -, -⟩, h5, h6, h7⟩ := hall kv hkv
  exact ⟨⟨h1, h2⟩, h5, h6, fun v hv => ⟨(h7 v hv).1, (h7 v hv).2.1, (h7 v hv).2.2.1⟩⟩

theorem eq_not_in_renderJoin {vs : List Str} (hv : ∀ v ∈ vs, ',' ∉ v ∧ '=' ∉ v ∧ '|' ∉ v) :
    '=' ∉ joinSep [','] (List.insertionSort sLe vs) ∧
    '|' ∉ joinSep [','] (List.insertionSort sLe vs) := by
  constructor <;> intro hm
  · rcases mem_joinSep hm with h1 | ⟨l, hl, hal⟩
    · simp at h1
    · rw [List.mem_insertionSort] at hl
      exact (hv l hl).2.1 hal
  · rcases mem_joinSep hm with h1 | ⟨l, hl, hal⟩
    · simp at h1
    · rw [List.mem_insertionSort] at hl
      exact (hv l hl).2.2 hal

theorem splitChar_renderKV {kv : Str × List Str} (h : KvOk kv) :
    splitChar '=' (renderKV kv) = [kv.1, joinSep [','] (List.insertionSort sLe kv.2)] := by
  obtain ⟨⟨h1, _⟩, _, _, hv⟩ := h
  unfold renderKV
  rw [splitChar_append_cons h1]
  rw [splitChar_eq_single (eq_not_in_renderJoin hv).1]

theorem splitChar_values {vs : List Str} (hne : vs ≠ []) (_hn : vs.Nodup)
    (hv : ∀ v ∈ vs, ',' ∉ v) :
    splitChar ',' (joinSep [','] (List.insertionSort sLe vs)) =
      List.insertionSort sLe vs := by
  apply splitChar_joinSep
  · intro h0
    have := List.perm_insertionSort sLe vs
    rw [h0] at this
    exact hne this.symm.eq_nil
  · intro p hp
    rw [List.mem_insertionSort] at hp
    exact hv p hp

theorem setCanon_values {vs : List Str} (hn : vs.Nodup) :
    setCanon (List.insertionSort sLe vs) = List.insertionSort sLe vs :=
  setCanon_of_sorted_nodup (List.sorted_insertionSort sLe vs)
    (((List.perm_insertionSort sLe vs).nodup_iff).mpr hn)

theorem parseFeatsStep_renderKV {acc : Feats} {kv : Str × List Str} (h : KvOk kv)
    (hfresh : kv.1 ∉ acc.map Prod.fst) :
    parseFeatsStep acc (renderKV kv) =
      .ok (acc ++ [(kv.1, List.insertionSort sLe kv.2)]) := by
  unfold parseFeatsStep
  rw [splitChar_renderKV h]
  show Except.ok (dictInsert acc kv.1
      (setCanon (splitChar ',' (joinSep [','] (List.insertionSort sLe kv.2))))) = _
  rw [splitChar_values h.2.1 h.2.2.1 (fun v hvm => (h.2.2.2 v hvm).1)]
  rw [setCanon_values h.2.2.1]
  rw [dictInsert_append_fresh _ hfresh]

theorem foldlM_parse_rendered (sf : List (Str × List Str)) (acc : Feats)
    (hok : ∀ kv ∈ sf, KvOk kv)
    (hkeys : (sf.map Prod.fst).Nodup)
    (hdisj : ∀ kv ∈ sf, kv.1 ∉ acc.map Prod.fst) :
    List.foldlM parseFeatsStep acc (sf.map renderKV) =
      .ok (acc ++ sf.map (fun kv => (kv.1, List.insertionSort sLe kv.2))) := by
  induction sf generalizing acc with
  | nil => simp only [List.map_nil, List.foldlM_nil, List.append_nil]; rfl
  | cons kv rest ih =>
    have hkv : KvOk kv := hok kv (List.mem_cons_self kv rest)
    have hfresh : kv.1 ∉ acc.map Prod.fst := hdisj kv (List.mem_cons_self kv rest)
    simp only [List.map_cons, List.foldlM_cons]
    rw [parseFeatsStep_renderKV hkv hfresh]
    show List.foldlM parseFeatsStep (acc ++ [(kv.1, List.insertionSort sLe kv.2)])
        (rest.map renderKV) = _
    rw [ih (acc ++ [(kv.1, List.insertionSort sLe kv.2)])
        (fun kv2 h2 => hok kv2 (List.mem_cons_of_mem kv h2))
        ((List.nodup_cons.mp hkeys).2)]
    · simp
    · intro kv2 h2 hm
      rw [List.map_append, List.mem_append] at hm
      rcases hm with hm | hm
      · exact hdisj kv2 (List.mem_cons_of_mem kv h2) hm
      · simp only [List.map_cons, List.map_nil, List.mem_singleton] at hm
        have : kv.1 ∉ rest.map Prod.fst := (List.nodup_cons.mp hkeys).1
        exact this (hm ▸ List.mem_map.mpr ⟨kv2, h2, rfl⟩)

theorem sorted_pairs_mem {f : Feats} {kv : Str × List Str}
    (h : kv ∈ List.insertionSort pairLe f) : kv ∈ f :=
  (List.mem_insertionSort pairLe).mp h

theorem renderKV_no_bar {kv : Str × List Str} (h : KvOk kv) :
    '|' ∉ renderKV kv := by
  obtain ⟨⟨-, h2⟩, -, -, hv⟩ := h
  unfold renderKV
  intro hm
  rcases List.mem_append.mp hm with hm | hm
  · exact h2 hm
  · rcases List.mem_cons.mp hm with hm | hm
    · exact absurd hm.symm (by decide)
    · exact (eq_not_in_renderJoin hv).2 hm

theorem parseFeats_formatFeats {f : Feats} (hf : FeatsInv f) (hne : f ≠ []) :
    parseFeats (formatFeats f) = .ok (normFeats f) := by
  have hperm := List.perm_insertionSort pairLe f
  have hok : ∀ kv ∈ List.insertionSort pairLe f, KvOk kv := fun kv hkv =>
    kvOk_of_featsInv hf (sorted_pairs_mem hkv)
  have hkeys : ((List.insertionSort pairLe f).map Prod.fst).Nodup := by
    have hp2 : List.Perm ((List.insertionSort pairLe f).map Prod.fst) (f.map Prod.fst) :=
      hperm.map _
    exact (hp2.nodup_iff).mpr hf.1
  have hmapne : (List.insertionSort pairLe f).map renderKV ≠ [] := by
    intro h0
    rw [List.map_eq_nil_iff] at h0
    rw [h0] at hperm
    exact hne hperm.symm.eq_nil
  unfold parseFeats
  rw [formatFeats_eq_joinSep f hne]
  rw [splitChar_joinSep hmapne]
  · rw [foldlM_parse_rendered _ [] hok hkeys (by simp)]
    unfold normFeats
    simp
  · intro p hp
    rcases List.mem_map.mp hp with ⟨kv, hkv, rfl⟩
    exact renderKV_no_bar (hok kv hkv)

theorem formatFeats_has_eq {f : Feats} (hne : f ≠ []) :
    '=' ∈ formatFeats f := by
  rw [formatFeats_eq_joinSep f hne]
  have hperm := List.perm_insertionSort pairLe f
  cases hs : List.insertionSort pairLe f with
  | nil =>
    rw [hs] at hperm
    exact absurd hperm.symm.eq_nil hne
  | cons kv rest =>
    apply mem_joinSep_of_mem (l := renderKV kv)
    · rw [List.map_cons]
      exact List.mem_cons_self _ _
    · unfold renderKV
      exact List.mem_append.mpr (Or.inr (List.mem_cons_self _ _))

theorem formatFeats_ne_underscore {f : Feats} (hne : f ≠ []) :
    formatFeats f ≠ ['_'] := by
  intro h0
  have := formatFeats_has_eq hne
  rw [h0] at this
  rcases List.mem_singleton.mp this with h1
  exact absurd h1 (by decide)

theorem formatFeats_fieldOk {f : Feats} (hf : FeatsInv f) : fieldOk (formatFeats f) := by
  by_cases hne : f = []
  · subst hne; exact ⟨by decide, by decide, by decide⟩
  · refine ⟨?_, ?_, ?_⟩
    · intro h0
      have := formatFeats_has_eq hne
      rw [h0] at this
      simp at this
    all_goals
      rw [formatFeats_eq_joinSep f hne]
      intro hm
      rcases mem_joinSep hm with h1 | ⟨l, hl, hal⟩
      · simp at h1
      · rcases List.mem_map.mp hl with ⟨kv, hkv, rfl⟩
        have hinv := hf.2 kv (sorted_pairs_mem hkv)
        unfold renderKV at hal
        rcases List.mem_append.mp hal with h2 | h2
        · first
          | exact hinv.1.2.2.1 h2
          | exact hinv.1.2.2.2 h2
        · rcases List.mem_cons.mp h2 with h3 | h3
          · exact absurd h3.symm (by decide)
          · rcases mem_joinSep h3 with h4 | ⟨v, hv, hav⟩
            · simp at h4
            · rw [List.mem_insertionSort] at hv
              have hvv := (hinv.2.2.2 v hv).2.2.2
              first
                | exact hvv.1 hav
                | exact hvv.2 hav

/-! ## Word-level round trip: `_read_word` after `format_word` -/

theorem idParse_num (n : Nat) : idParse (natToStr n) = some (.num n) := by
  unfold idParse
  rw [if_pos (isdigitStr_natToStr n), parseNat_natToStr]

theorem idParse_str {s : Str} (_h1 : s ≠ []) (h2 : ∀ c ∈ s, idChar c = true)
    (h3 : isdigitStr s = false) : idParse s = some (.str s) := by
  unfold idParse
  rw [h3]
  rw [if_neg (by simp)]
  rw [if_pos (List.all_eq_true.mpr h2)]

theorem idParse_inv {v : IdVal} (h : IdInv v) : idParse (idStr v) = some v := by
  cases v with
  | num n => exact idParse_num n
  | str s =>
    obtain ⟨h1, h2, h3⟩ := h
    exact idParse_str h1 h2 h3

theorem headParse_inv (v : HeadVal) : headParse (headStr v) = some v := by
  cases v with
  | und => rfl
  | num z =>
    unfold headParse headStr
    rw [if_neg (intToStr_ne_underscore z), pyIntValid_intToStr, if_pos rfl, pyIntVal_intToStr]

theorem featsParseField_format {f : Feats} (hf : FeatsInv f) :
    featsParseField (formatFeats f) = .ok (normFeats f) := by
  by_cases hne : f = []
  · subst hne; rfl
  · unfold featsParseField
    rw [if_neg (formatFeats_ne_underscore hne)]
    exact parseFeats_formatFeats hf hne

theorem idStr_fieldOk {v : IdVal} (h : IdInv v) : fieldOk (idStr v) := by
  cases v with
  | num n => exact fieldOk_natToStr n
  | str s =>
    obtain ⟨h1, h2, -⟩ := h
    refine ⟨h1, ?_, ?_⟩ <;> intro hm
    · exact absurd (idChar_facts (h2 _ hm)).2.2.1 (by simp)
    · exact absurd (idChar_facts (h2 _ hm)).2.2.2 (by simp)

theorem headStr_fieldOk (v : HeadVal) : fieldOk (headStr v) := by
  cases v with
  | und => exact ⟨by decide, by decide, by decide⟩
  | num z => exact fieldOk_intToStr z

theorem format_word_eq (w : Word) : format_word w = joinSep ['\t'] (wordFields w) := rfl

theorem wordFields_fieldOk {P : List Str} {w : Word} (h : ParsedInv P w) :
    ∀ p ∈ wordFields w, fieldOk p := by
  obtain ⟨hid, hFORM, hLEMMA, hUPOS, hXPOS, hDEPREL, hDEPS, hMISC, -, hfeats, -⟩ := h
  intro p hp
  unfold wordFields at hp
  simp only [List.mem_cons, List.not_mem_nil, or_false] at hp
  rcases hp with rfl|rfl|rfl|rfl|rfl|rfl|rfl|rfl|rfl|rfl
  · exact idStr_fieldOk hid
  · exact hFORM
  · exact hLEMMA
  · exact hUPOS
  · exact hXPOS
  · exact formatFeats_fieldOk hfeats
  · exact headStr_fieldOk w.HEAD
  · exact hDEPREL
  · exact hDEPS
  · exact hMISC

theorem splitChar_format_word {P : List Str} {w : Word} (h : ParsedInv P w) :
    splitChar '\t' (format_word w) = wordFields w := by
  rw [format_word_eq]
  apply splitChar_joinSep (by unfold wordFields; simp)
  intro p hp
  exact (wordFields_fieldOk h p hp).2.1

theorem read_word_ten (P : List Str) (f0 f1 f2 f3 f4 f5 f6 f7 f8 f9 : Str) :
    read_word P [f0, f1, f2, f3, f4, f5, f6, f7, f8, f9] =
      (if f0 = [] ∨ f1 = [] ∨ f2 = [] ∨ f3 = [] ∨ f4 = [] ∨
          f5 = [] ∨ f6 = [] ∨ f7 = [] ∨ f8 = [] ∨ f9 = [] then .error ()
       else
         match idParse f0 with
         | none => .error ()
         | some idv =>
           if f3 ∈ P ∨ f3 = ['_'] then
             match featsParseField f5 with
             | .error _ => .error ()
             | .ok fe =>
               match headParse f6 with
               | none => .error ()
               | some hd => .ok ⟨idv, f1, f2, f3, f4, fe, hd, f7, f8, f9⟩
           else .error ()) := rfl

theorem read_word_format {P : List Str} {w : Word} (h : ParsedInv P w) :
    read_word P (splitChar '\t' (format_word w)) = .ok (normWord w) := by
  have hsplit := splitChar_format_word h
  obtain ⟨hid, hFORM, hLEMMA, hUPOS, hXPOS, hDEPREL, hDEPS, hMISC, hupos, hfeats, -⟩ := h
  rw [hsplit]
  unfold wordFields
  rw [read_word_ten]
  rw [if_neg (by
    simp only [not_or]
    exact ⟨(idStr_fieldOk hid).1, hFORM.1, hLEMMA.1, hUPOS.1, hXPOS.1,
      (formatFeats_fieldOk hfeats).1, (headStr_fieldOk w.HEAD).1,
      hDEPREL.1, hDEPS.1, hMISC.1⟩)]
  simp only [idParse_inv hid]
  rw [if_pos hupos]
  simp only [featsParseField_format hfeats, headParse_inv]
  rfl

/-! ## Lines of a written file -/

theorem unlines_append (A B : List Str) : unlines (A ++ B) = unlines A ++ unlines B := by
  induction A with
  | nil => rfl
  | cons l ls ih => simp [unlines, ih]

theorem splitChar_unlines {L : List Str} (h : ∀ l ∈ L, '\n' ∉ l) :
    splitChar '\n' (unlines L) = L ++ [[]] := by
  induction L with
  | nil => rfl
  | cons l ls ih =>
    have hl : '\n' ∉ l := h l (List.mem_cons_self l ls)
    have hls : ∀ x ∈ ls, '\n' ∉ x := fun x hx => h x (List.mem_cons_of_mem l hx)
    show splitChar '\n' (l ++ '\n' :: unlines ls) = _
    rw [splitChar_append_cons hl, ih hls]
    rfl

theorem unlines_ne_nil (l : Str) (ls : List Str) : unlines (l :: ls) ≠ [] := by
  show l ++ '\n' :: unlines ls ≠ []
  simp

theorem fileLines_unlines {L : List Str} (h : ∀ l ∈ L, '\n' ∉ l) :
    fileLines (unlines L) = L := by
  cases L with
  | nil => rfl
  | cons l ls =>
    unfold fileLines
    rw [if_neg (unlines_ne_nil l ls)]
    rw [splitChar_unlines h]
    show (if ((l :: ls) ++ [[]]).getLast? = some [] then ((l :: ls) ++ [[]]).dropLast
          else (l :: ls) ++ [[]]) = l :: ls
    rw [List.getLast?_concat, if_pos rfl]
    exact List.dropLast_concat

theorem joinSep_blankblank (L : List Str) :
    joinSep ['\n'] (L ++ [[], []]) = unlines (L ++ [[]]) := by
  induction L with
  | nil => rfl
  | cons l ls ih =>
    cases hls : ls ++ [[], []] with
    | nil => simp at hls
    | cons x xs =>
      have h1 : joinSep ['\n'] ((l :: ls) ++ [[], []]) =
          l ++ ['\n'] ++ joinSep ['\n'] (ls ++ [[], []]) := by
        rw [List.cons_append, hls]
        rfl
      rw [h1, ih]
      show _ = l ++ '\n' :: unlines (ls ++ [[]])
      simp

theorem format_sentence_eq_unlines (s : List Word) :
    format_sentence s = unlines (sentLines s) := by
  unfold format_sentence sentLines
  exact joinSep_blankblank (s.map format_word)

theorem write_sentences_eq_unlines (S : List (List Word)) :
    write_sentences_text S = unlines (allLines S) := by
  unfold write_sentences_text allLines
  induction S with
  | nil => rfl
  | cons s S' ih =>
    simp only [List.map_cons, List.flatten_cons]
    rw [unlines_append, ← ih, format_sentence_eq_unlines]

theorem format_word_no_newline {P : List Str} {w : Word} (h : ParsedInv P w) :
    '\n' ∉ format_word w := by
  rw [format_word_eq]
  intro hm
  rcases mem_joinSep hm with h1 | ⟨l, hl, hal⟩
  · simp at h1
  · exact (wordFields_fieldOk h l hl).2.2 hal

theorem allLines_no_newline {P : List Str} {S : List (List Word)}
    (h : ∀ s ∈ S, ∀ w ∈ s, ParsedInv P w) :
    ∀ l ∈ allLines S, '\n' ∉ l := by
  intro l hl
  unfold allLines at hl
  rw [List.mem_flatten] at hl
  obtain ⟨ls, hls, hlm⟩ := hl
  rcases List.mem_map.mp hls with ⟨s, hs, rfl⟩
  unfold sentLines at hlm
  rcases List.mem_append.mp hlm with h1 | h1
  · rcases List.mem_map.mp h1 with ⟨w, hw, rfl⟩
    exact format_word_no_newline (h s hs w hw)
  · rcases List.mem_singleton.mp h1 with rfl
    simp

theorem fileLines_write_sentences {P : List Str} {S : List (List Word)}
    (h : ∀ s ∈ S, ∀ w ∈ s, ParsedInv P w) :
    fileLines (write_sentences_text S) = allLines S := by
  rw [write_sentences_eq_unlines]
  exact fileLines_unlines (allLines_no_newline h)

/-! ## The reader applied to formatted lines -/

theorem format_word_head {P : List Str} {w : Word} (h : ParsedInv P w) :
    ∃ c, (format_word w).head? = some c ∧ pySpace c = false ∧ c ≠ '#' := by
  rw [format_word_eq]
  have hid : IdInv w.ID := h.1
  have hne : idStr w.ID ≠ [] := (idStr_fieldOk hid).1
  have hh : (joinSep ['\t'] (wordFields w)).head? = (idStr w.ID).head? := by
    unfold wordFields
    exact joinSep_head? _ hne
  cases hs : idStr w.ID with
  | nil => exact absurd hs hne
  | cons c r =>
    refine ⟨c, by rw [hh, hs]; rfl, ?_⟩
    cases hv : w.ID with
    | num n =>
      have : c ∈ natToStr n := by
        have : idStr w.ID = natToStr n := by rw [hv]; rfl
        rw [this] at hs
        exact hs ▸ List.mem_cons_self c r
      have hd := natToStr_all_digit this
      exact ⟨(isDigit_facts hd).1, (isDigit_facts hd).2.1⟩
    | str s =>
      have hmem : c ∈ s := by
        have : idStr w.ID = s := by rw [hv]; rfl
        rw [this] at hs
        exact hs ▸ List.mem_cons_self c r
      rw [hv] at hid
      have hc := hid.2.1 c hmem
      exact ⟨(idChar_facts hc).1, (idChar_facts hc).2.1⟩

theorem wordFields_split (w : Word) :
    wordFields w = [idStr w.ID, w.FORM, w.LEMMA, w.UPOSTAG, w.XPOSTAG,
      formatFeats w.FEATS, headStr w.HEAD, w.DEPREL, w.DEPS] ++ [w.MISC] := rfl

theorem format_word_getLast {P : List Str} {w : Word} (h : ParsedInv P w) :
    (format_word w).getLast? = w.MISC.getLast? := by
  rw [format_word_eq, wordFields_split]
  exact joinSep_getLast? _ h.2.2.2.2.2.2.2.1.1

theorem pyStrip_format_word {P : List Str} {w : Word} (h : ParsedInv P w) :
    pyStrip (format_word w) = format_word w := by
  apply pyStrip_eq_self
  · intro c hc
    obtain ⟨c0, hc0, hsp, -⟩ := format_word_head h
    rw [hc0] at hc
    cases hc
    exact hsp
  · intro c hc
    rw [format_word_getLast h] at hc
    exact h.2.2.2.2.2.2.2.2.2.2 c hc

theorem format_word_not_comment {P : List Str} {w : Word} (h : ParsedInv P w) :
    (format_word w).head? ≠ some '#' := by
  obtain ⟨c0, hc0, -, hhash⟩ := format_word_head h
  rw [hc0]
  intro he
  cases he
  exact hhash rfl

theorem format_word_ne_nil {P : List Str} {w : Word} (h : ParsedInv P w) :
    format_word w ≠ [] := by
  intro h0
  obtain ⟨c0, hc0, -, -⟩ := format_word_head h
  rw [h0] at hc0
  simp at hc0

/-! ## The sentence reader on formatted input -/

theorem genAux_nil (P : List Str) (dp sp : Str) (mw : Bool) (i : Nat)
    (d sd : IdState) (cnt : Nat) (sent : List Word) :
    genAux P dp sp mw [] i d sd cnt sent = .ok [] := rfl

theorem genAux_cons (P : List Str) (dp sp : Str) (mw : Bool) (l : Str) (ls : List Str)
    (i : Nat) (d sd : IdState) (cnt : Nat) (sent : List Word) :
    genAux P dp sp mw (l :: ls) i d sd cnt sent =
      (if (pyStrip l).head? = some '#' then
        match commentUpdate dp sp (pyStrip l) d sd with
        | .error _ => .error i
        | .ok (d', sd') => genAux P dp sp mw ls (i + 1) d' sd' cnt sent
      else if pyStrip l ≠ [] then
        match read_word P (splitChar '\t' (pyStrip l)) with
        | .error _ => .error i
        | .ok w => genAux P dp sp mw ls (i + 1) d sd cnt
            (if mw || isNumId w.ID then sent ++ [w] else sent)
      else
        match genAux P dp sp mw ls (i + 1) (if d = .strv [] then .natv 0 else d)
            (if sd = .strv [] then .natv cnt else sd) (cnt + 1) [] with
        | .error e => .error e
        | .ok r => .ok ((idStateStr (if d = .strv [] then .natv 0 else d) ++
            '_' :: idStateStr (if sd = .strv [] then .natv cnt else sd), sent) :: r)) := rfl

theorem normWord_ID (w : Word) : (normWord w).ID = w.ID := rfl

theorem genAux_words (P : List Str) (dp sp : Str) (mw : Bool) (s : List Word)
    (hs : ∀ w ∈ s, ParsedInv P w)
    (hmw : ∀ w ∈ s, mw = true ∨ isNumId w.ID = true) :
    ∀ rest i d sd cnt acc,
      genAux P dp sp mw (s.map format_word ++ rest) i d sd cnt acc =
        genAux P dp sp mw rest (i + s.length) d sd cnt (acc ++ s.map normWord) := by
  induction s with
  | nil => intro rest i d sd cnt acc; simp
  | cons w s' ih =>
    intro rest i d sd cnt acc
    have hw : ParsedInv P w := hs w (List.mem_cons_self w s')
    have hs' : ∀ x ∈ s', ParsedInv P x := fun x hx => hs x (List.mem_cons_of_mem w hx)
    have hmw' : ∀ x ∈ s', mw = true ∨ isNumId x.ID = true := fun x hx =>
      hmw x (List.mem_cons_of_mem w hx)
    simp only [List.map_cons, List.cons_append]
    rw [genAux_cons]
    rw [pyStrip_format_word hw]
    rw [if_neg (format_word_not_comment hw)]
    rw [if_pos (format_word_ne_nil hw)]
    simp only [read_word_format hw]
    have hcond : (mw || isNumId (normWord w).ID) = true := by
      rcases hmw w (List.mem_cons_self w s') with hm | hm
      · rw [hm]; rfl
      · rw [normWord_ID, hm, Bool.or_true]
    rw [if_pos hcond]
    rw [ih hs' hmw' rest (i + 1) d sd cnt (acc ++ [normWord w])]
    have harith : i + 1 + s'.length = i + (s'.length + 1) := by omega
    rw [harith]
    simp

theorem genAux_sentences (P : List Str) (dp sp : Str) (mw : Bool)
    (S : List (List Word))
    (hS : ∀ s ∈ S, ∀ w ∈ s, ParsedInv P w)
    (hmw : ∀ s ∈ S, ∀ w ∈ s, mw = true ∨ isNumId w.ID = true) :
    ∀ i d sd cnt,
      genAux P dp sp mw (allLines S) i d sd cnt [] =
        .ok ((genNames d sd cnt S.length).zip (S.map (List.map normWord))) := by
  induction S with
  | nil => intro i d sd cnt; rfl
  | cons s S' ih =>
    intro i d sd cnt
    have hsv : ∀ w ∈ s, ParsedInv P w := hS s (List.mem_cons_self s S')
    have hmwv : ∀ w ∈ s, mw = true ∨ isNumId w.ID = true := hmw s (List.mem_cons_self s S')
    have hS' : ∀ t ∈ S', ∀ w ∈ t, ParsedInv P w := fun t ht => hS t (List.mem_cons_of_mem s ht)
    have hmw' : ∀ t ∈ S', ∀ w ∈ t, mw = true ∨ isNumId w.ID = true := fun t ht =>
      hmw t (List.mem_cons_of_mem s ht)
    have hall : allLines (s :: S') = s.map format_word ++ ([] :: allLines S') := by
      unfold allLines sentLines
      simp
    rw [hall]
    rw [genAux_words P dp sp mw s hsv hmwv ([] :: allLines S') i d sd cnt []]
    rw [genAux_cons]
    have hstrip : pyStrip ([] : Str) = [] := rfl
    rw [hstrip]
    rw [if_neg (by simp)]
    rw [if_neg (by simp)]
    rw [ih hS' hmw' (i + s.length + 1) (if d = .strv [] then .natv 0 else d)
        (if sd = .strv [] then .natv cnt else sd) (cnt + 1)]
    simp only [List.length_cons, genNames, List.map_cons, List.zip_cons_cons,
      List.nil_append]

theorem genNames_length (d sd : IdState) (cnt k : Nat) :
    (genNames d sd cnt k).length = k := by
  induction k generalizing d sd cnt with
  | zero => rfl
  | succ k ih => simp [genNames, ih]

/-! ## The reader's output satisfies the parsed-word invariant -/

theorem mem_of_mem_pyStrip {c : Char} {s : Str} (h : c ∈ pyStrip s) : c ∈ s := by
  unfold pyStrip at h
  rw [List.mem_reverse] at h
  have h2 := (List.dropWhile_sublist (l := (s.dropWhile pySpace).reverse)
    (p := pySpace)).subset h
  rw [List.mem_reverse] at h2
  exact (List.dropWhile_sublist (p := pySpace)).subset h2

theorem keys_dictInsert (d : Feats) (k : Str) (v : List Str) :
    (dictInsert d k v).map Prod.fst =
      if k ∈ d.map Prod.fst then d.map Prod.fst else d.map Prod.fst ++ [k] := by
  induction d with
  | nil => simp [dictInsert]
  | cons kv rest ih =>
    cases kv with
    | mk k0 v0 =>
      by_cases hk : k0 = k
      · subst hk
        simp [dictInsert]
      · simp only [dictInsert, if_neg hk, List.map_cons, ih]
        by_cases hm : k ∈ rest.map Prod.fst
        · rw [if_pos hm, if_pos (by simp [hm])]
        · rw [if_neg hm, if_neg (by simp [hm, Ne.symm hk])]
          simp

theorem nodup_keys_dictInsert {d : Feats} {k : Str} {v : List Str}
    (h : (d.map Prod.fst).Nodup) : ((dictInsert d k v).map Prod.fst).Nodup := by
  rw [keys_dictInsert]
  by_cases hm : k ∈ d.map Prod.fst
  · rw [if_pos hm]; exact h
  · rw [if_neg hm]
    rw [List.nodup_append]
    exact ⟨h, List.nodup_singleton k, by simpa using hm⟩

theorem mem_dictInsert {d : Feats} {k : Str} {v : List Str} {kv : Str × List Str}
    (h : kv ∈ dictInsert d k v) : kv ∈ d ∨ kv = (k, v) := by
  induction d with
  | nil => simp [dictInsert] at h; exact Or.inr h
  | cons kv0 rest ih =>
    cases kv0 with
    | mk k0 v0 =>
      by_cases hk : k0 = k
      · subst hk
        simp only [dictInsert, if_pos rfl] at h
        rcases List.mem_cons.mp h with h1 | h1
        · exact Or.inr (by rw [h1])
        · exact Or.inl (List.mem_cons_of_mem _ h1)
      · simp only [dictInsert, if_neg hk] at h
        rcases List.mem_cons.mp h with h1 | h1
        · exact Or.inl (h1 ▸ List.mem_cons_self _ _)
        · rcases ih h1 with h2 | h2
          · exact Or.inl (List.mem_cons_of_mem _ h2)
          · exact Or.inr h2

theorem mem_setCanon {l : List Str} {x : Str} (h : x ∈ setCanon l) : x ∈ l := by
  unfold setCanon at h
  rw [List.mem_insertionSort] at h
  exact List.mem_dedup.mp h

theorem setCanon_nodup (l : List Str) : (setCanon l).Nodup := by
  unfold setCanon
  exact ((List.perm_insertionSort sLe l.dedup).nodup_iff).mpr (List.nodup_dedup l)

theorem setCanon_ne_nil {l : List Str} (h : l ≠ []) : setCanon l ≠ [] := by
  unfold setCanon
  intro h0
  cases l with
  | nil => exact h rfl
  | cons x xs =>
    have hm : x ∈ List.insertionSort sLe (x :: xs).dedup := by
      rw [List.mem_insertionSort, List.mem_dedup]
      exact List.mem_cons_self x xs
    rw [h0] at hm
    simp at hm

/-- The value-set and key conditions of `FeatsInv` for one parsed pair. -/
theorem featsInv_dictInsert {d : Feats} {k : Str} {v : List Str}
    (hd : FeatsInv d)
    (hk : '=' ∉ k ∧ '|' ∉ k ∧ '\t' ∉ k ∧ '\n' ∉ k)
    (hv : v ≠ [] ∧ v.Nodup ∧ ∀ x ∈ v, ',' ∉ x ∧ '=' ∉ x ∧ '|' ∉ x ∧ '\t' ∉ x ∧ '\n' ∉ x) :
    FeatsInv (dictInsert d k v) := by
  constructor
  · exact nodup_keys_dictInsert hd.1
  · intro kv hkv
    rcases mem_dictInsert hkv with h1 | h1
    · exact hd.2 kv h1
    · subst h1
      exact ⟨hk, hv.1, hv.2.1, hv.2.2⟩

theorem parseFeatsStep_inv {d d' : Feats} {part : Str}
    (h : parseFeatsStep d part = .ok d') (hd : FeatsInv d)
    (hpart : '|' ∉ part ∧ '\t' ∉ part ∧ '\n' ∉ part) : FeatsInv d' := by
  unfold parseFeatsStep at h
  cases hsp : splitChar '=' part with
  | nil => rw [hsp] at h; exact absurd h (by simp)
  | cons k t =>
    cases t with
    | nil => rw [hsp] at h; exact absurd h (by simp)
    | cons v t2 =>
      cases t2 with
      | cons x t3 => rw [hsp] at h; exact absurd h (by simp)
      | nil =>
        rw [hsp] at h
        have hkd : d' = dictInsert d k (setCanon (splitChar ',' v)) := by
          have := h
          simp only [Except.ok.injEq] at this
          exact this.symm
        subst hkd
        have hkmem : k ∈ splitChar '=' part := hsp ▸ List.mem_cons_self _ _
        have hvmem : v ∈ splitChar '=' part := hsp ▸ List.mem_cons_of_mem _ (List.mem_cons_self _ _)
        apply featsInv_dictInsert hd
        · refine ⟨not_sep_of_mem_splitChar hkmem, ?_, ?_, ?_⟩ <;> intro hc
          · exact hpart.1 (mem_of_mem_splitChar hkmem hc)
          · exact hpart.2.1 (mem_of_mem_splitChar hkmem hc)
          · exact hpart.2.2 (mem_of_mem_splitChar hkmem hc)
        · refine ⟨setCanon_ne_nil (splitChar_ne_nil ',' v), setCanon_nodup _, ?_⟩
          intro x hx
          have hx2 := mem_setCanon hx
          refine ⟨not_sep_of_mem_splitChar hx2, ?_, ?_, ?_, ?_⟩ <;> intro hc
          · exact not_sep_of_mem_splitChar hvmem (mem_of_mem_splitChar hx2 hc)
          · exact hpart.1 (mem_of_mem_splitChar hvmem (mem_of_mem_splitChar hx2 hc))
          · exact hpart.2.1 (mem_of_mem_splitChar hvmem (mem_of_mem_splitChar hx2 hc))
          · exact hpart.2.2 (mem_of_mem_splitChar hvmem (mem_of_mem_splitChar hx2 hc))

theorem parseFeats_inv {f5 : Str} {fe : Feats} (h : parseFeats f5 = .ok fe)
    (hf : '\t' ∉ f5 ∧ '\n' ∉ f5) : FeatsInv fe := by
  unfold parseFeats at h
  have haux : ∀ (parts : List Str) (acc : Feats), FeatsInv acc →
      (∀ p ∈ parts, '|' ∉ p ∧ '\t' ∉ p ∧ '\n' ∉ p) →
      List.foldlM parseFeatsStep acc parts = .ok fe → FeatsInv fe := by
    intro parts
    induction parts with
    | nil =>
      intro acc hacc _ hok
      simp only [List.foldlM_nil] at hok
      have : acc = fe := by
        have := hok
        simp only [pure, Except.pure, Except.ok.injEq] at this
        exact this
      exact this ▸ hacc
    | cons p ps ih =>
      intro acc hacc hparts hok
      simp only [List.foldlM_cons] at hok
      cases hstep : parseFeatsStep acc p with
      | error e =>
        rw [hstep] at hok
        simp only [Bind.bind, Except.bind] at hok
        exact absurd hok (by simp)
      | ok acc2 =>
        rw [hstep] at hok
        simp only [Bind.bind, Except.bind] at hok
        have hacc2 : FeatsInv acc2 :=
          parseFeatsStep_inv hstep hacc (hparts p (List.mem_cons_self p ps))
        exact ih acc2 hacc2 (fun q hq => hparts q (List.mem_cons_of_mem p hq)) hok
  apply haux (splitChar '|' f5) [] ⟨List.nodup_nil, by simp⟩ _ h
  intro p hp
  refine ⟨not_sep_of_mem_splitChar hp, ?_, ?_⟩ <;> intro hc
  · exact hf.1 (mem_of_mem_splitChar hp hc)
  · exact hf.2 (mem_of_mem_splitChar hp hc)

theorem featsParseField_inv {f5 : Str} {fe : Feats} (h : featsParseField f5 = .ok fe)
    (hf : '\t' ∉ f5 ∧ '\n' ∉ f5) : FeatsInv fe := by
  unfold featsParseField at h
  by_cases h5 : f5 = ['_']
  · rw [if_pos h5] at h
    have : ([] : Feats) = fe := by
      have := h
      simp only [Except.ok.injEq] at this
      exact this
    subst this
    exact ⟨List.nodup_nil, by simp⟩
  · rw [if_neg h5] at h
    exact parseFeats_inv h hf

theorem idParse_idInv {f0 : Str} {v : IdVal} (h : idParse f0 = some v)
    (hne : f0 ≠ []) : IdInv v := by
  unfold idParse at h
  by_cases hd : isdigitStr f0 = true
  · rw [if_pos hd] at h
    cases h
    trivial
  · rw [if_neg hd] at h
    by_cases ha : f0.all idChar = true
    · rw [if_pos ha] at h
      cases h
      exact ⟨hne, List.all_eq_true.mp ha, Bool.eq_false_iff.mpr hd⟩
    · rw [if_neg ha] at h
      exact absurd h (by simp)

/-- Full inversion of a successful `_read_word`. -/
theorem read_word_ok_inv {P : List Str} {fields : List Str} {w : Word}
    (h : read_word P fields = .ok w) :
    ∃ f0 f5 f6,
      fields = [f0, w.FORM, w.LEMMA, w.UPOSTAG, w.XPOSTAG, f5, f6,
        w.DEPREL, w.DEPS, w.MISC] ∧
      (∀ f ∈ fields, f ≠ []) ∧
      idParse f0 = some w.ID ∧
      (w.UPOSTAG ∈ P ∨ w.UPOSTAG = ['_']) ∧
      featsParseField f5 = .ok w.FEATS ∧
      headParse f6 = some w.HEAD := by
  rcases fields with - | ⟨f0, - | ⟨f1, - | ⟨f2, - | ⟨f3, - | ⟨f4, - | ⟨f5, - | ⟨f6, - |
    ⟨f7, - | ⟨f8, - | ⟨f9, - | ⟨f10, rest⟩⟩⟩⟩⟩⟩⟩⟩⟩⟩⟩
  case nil => simp [read_word] at h
  case cons.nil => simp [read_word] at h
  case cons.cons.nil => simp [read_word] at h
  case cons.cons.cons.nil => simp [read_word] at h
  case cons.cons.cons.cons.nil => simp [read_word] at h
  case cons.cons.cons.cons.cons.nil => simp [read_word] at h
  case cons.cons.cons.cons.cons.cons.nil => simp [read_word] at h
  case cons.cons.cons.cons.cons.cons.cons.nil => simp [read_word] at h
  case cons.cons.cons.cons.cons.cons.cons.cons.nil => simp [read_word] at h
  case cons.cons.cons.cons.cons.cons.cons.cons.cons.nil => simp [read_word] at h
  case cons.cons.cons.cons.cons.cons.cons.cons.cons.cons.cons => simp [read_word] at h
  case cons.cons.cons.cons.cons.cons.cons.cons.cons.cons.nil =>
    rw [read_word_ten] at h
    by_cases hemp : f0 = [] ∨ f1 = [] ∨ f2 = [] ∨ f3 = [] ∨ f4 = [] ∨
        f5 = [] ∨ f6 = [] ∨ f7 = [] ∨ f8 = [] ∨ f9 = []
    · rw [if_pos hemp] at h
      exact absurd h (by simp)
    · rw [if_neg hemp] at h
      cases hid : idParse f0 with
      | none => rw [hid] at h; exact absurd h (by simp)
      | some idv =>
        rw [hid] at h
        simp only [] at h
        by_cases hupos : f3 ∈ P ∨ f3 = ['_']
        · rw [if_pos hupos] at h
          cases hfe : featsParseField f5 with
          | error e => rw [hfe] at h; exact absurd h (by simp)
          | ok fe =>
            rw [hfe] at h
            simp only [] at h
            cases hhd : headParse f6 with
            | none => rw [hhd] at h; exact absurd h (by simp)
            | some hd =>
              rw [hhd] at h
              simp only [Except.ok.injEq] at h
              subst h
              push_neg at hemp
              refine ⟨f0, f5, f6, rfl, ?_, hid, hupos, hfe, hhd⟩
              intro f hf
              simp only [List.mem_cons, List.not_mem_nil, or_false] at hf
              rcases hf with rfl|rfl|rfl|rfl|rfl|rfl|rfl|rfl|rfl|rfl <;> tauto
        · rw [if_neg hupos] at h
          exact absurd h (by simp)

/-- A word produced by the reader from a newline-free line satisfies the
parsed-word invariant. -/
theorem read_word_parsedInv {P : List Str} {l : Str} {w : Word}
    (h : read_word P (splitChar '\t' (pyStrip l)) = .ok w)
    (hnl : '\n' ∉ l) : ParsedInv P w := by
  obtain ⟨f0, f5, f6, hshape, hne, hid, hupos, hfe, hhd⟩ := read_word_ok_inv h
  have hok : ∀ f ∈ splitChar '\t' (pyStrip l), f ≠ [] → fieldOk f := by
    intro f hf hfne
    refine ⟨hfne, not_sep_of_mem_splitChar hf, ?_⟩
    intro hc
    exact hnl (mem_of_mem_pyStrip (mem_of_mem_splitChar hf hc))
  have hmem : ∀ f ∈ [f0, w.FORM, w.LEMMA, w.UPOSTAG, w.XPOSTAG, f5, f6,
      w.DEPREL, w.DEPS, w.MISC], f ∈ splitChar '\t' (pyStrip l) := by
    intro f hf
    rw [hshape]
    exact hf
  have hfok : ∀ f ∈ [f0, w.FORM, w.LEMMA, w.UPOSTAG, w.XPOSTAG, f5, f6,
      w.DEPREL, w.DEPS, w.MISC], fieldOk f := by
    intro f hf
    exact hok f (hmem f hf) (hne f (hshape ▸ hmem f hf))
  have hf0 : fieldOk f0 := hfok f0 (by simp)
  have hFORM : fieldOk w.FORM := hfok w.FORM (by simp)
  have hLEMMA : fieldOk w.LEMMA := hfok w.LEMMA (by simp)
  have hUPOS : fieldOk w.UPOSTAG := hfok w.UPOSTAG (by simp)
  have hXPOS : fieldOk w.XPOSTAG := hfok w.XPOSTAG (by simp)
  have hf5 : fieldOk f5 := hfok f5 (by simp)
  have hDEPREL : fieldOk w.DEPREL := hfok w.DEPREL (by simp)
  have hDEPS : fieldOk w.DEPS := hfok w.DEPS (by simp)
  have hMISC : fieldOk w.MISC := hfok w.MISC (by simp)
  refine ⟨idParse_idInv hid hf0.1, hFORM, hLEMMA, hUPOS, hXPOS, hDEPREL, hDEPS, hMISC,
    hupos, featsParseField_inv hfe ⟨hf5.2.1, hf5.2.2⟩, ?_⟩
  have hlast : (pyStrip l).getLast? = w.MISC.getLast? := by
    conv_lhs => rw [← joinSep_splitChar '\t' (pyStrip l), hshape]
    exact joinSep_getLast?
      (L := [f0, w.FORM, w.LEMMA, w.UPOSTAG, w.XPOSTAG, f5, f6, w.DEPREL, w.DEPS])
      hMISC.1
  intro c hc
  apply pyStrip_getLast_not_space (s := l)
  rw [hlast]
  exact hc

/-- Every word in a successful read satisfies the invariant; with
multiwords excluded, every buffered word has an integer id. -/
theorem genAux_parsedInv {P : List Str} {dp sp : Str} {mw : Bool} :
    ∀ (ls : List Str) (i : Nat) (d sd : IdState) (cnt : Nat) (sent : List Word)
      (r : List (Str × List Word)),
      genAux P dp sp mw ls i d sd cnt sent = .ok r →
      (∀ l ∈ ls, '\n' ∉ l) →
      (∀ w ∈ sent, ParsedInv P w ∧ (mw = false → isNumId w.ID = true)) →
      ∀ p ∈ r, ∀ w ∈ p.2, ParsedInv P w ∧ (mw = false → isNumId w.ID = true) := by
  intro ls
  induction ls with
  | nil =>
    intro i d sd cnt sent r hok _ _ p hp
    rw [genAux_nil] at hok
    simp only [Except.ok.injEq] at hok
    subst hok
    simp at hp
  | cons l ls' ih =>
    intro i d sd cnt sent r hok hnl hsent p hp
    have hnl' : ∀ x ∈ ls', '\n' ∉ x := fun x hx => hnl x (List.mem_cons_of_mem l hx)
    have hnll : '\n' ∉ l := hnl l (List.mem_cons_self l ls')
    rw [genAux_cons] at hok
    by_cases hcom : (pyStrip l).head? = some '#'
    · rw [if_pos hcom] at hok
      cases hcu : commentUpdate dp sp (pyStrip l) d sd with
      | error e =>
        rw [hcu] at hok
        exact absurd hok (by simp)
      | ok pr =>
        obtain ⟨d', sd'⟩ := pr
        rw [hcu] at hok
        exact ih (i + 1) d' sd' cnt sent r hok hnl' hsent p hp
    · rw [if_neg hcom] at hok
      by_cases hblank : pyStrip l ≠ []
      · rw [if_pos hblank] at hok
        cases hrw : read_word P (splitChar '\t' (pyStrip l)) with
        | error e =>
          rw [hrw] at hok
          exact absurd hok (by simp)
        | ok w0 =>
          rw [hrw] at hok
          have hw0 : ParsedInv P w0 := read_word_parsedInv hrw hnll
          have hok2 : genAux P dp sp mw ls' (i + 1) d sd cnt
              (if (mw || isNumId w0.ID) = true then sent ++ [w0] else sent) = .ok r := hok
          by_cases hc : (mw || isNumId w0.ID) = true
          · rw [if_pos hc] at hok2
            apply ih (i + 1) d sd cnt (sent ++ [w0]) r hok2 hnl' _ p hp
            intro x hx
            rcases List.mem_append.mp hx with h1 | h1
            · exact hsent x h1
            · rcases List.mem_singleton.mp h1 with rfl
              refine ⟨hw0, ?_⟩
              intro hmwf
              rw [hmwf, Bool.false_or] at hc
              exact hc
          · rw [if_neg hc] at hok2
            exact ih (i + 1) d sd cnt sent r hok2 hnl' hsent p hp
      · rw [if_neg hblank] at hok
        cases hrec : genAux P dp sp mw ls' (i + 1) (if d = .strv [] then .natv 0 else d)
            (if sd = .strv [] then .natv cnt else sd) (cnt + 1) [] with
        | error e =>
          rw [hrec] at hok
          exact absurd hok (by simp)
        | ok r' =>
          rw [hrec] at hok
          simp only [Except.ok.injEq] at hok
          subst hok
          rcases List.mem_cons.mp hp with h1 | h1
          · subst h1
            intro w hw
            exact hsent w hw
          · exact ih (i + 1) _ _ (cnt + 1) [] r' hrec hnl' (by simp) p h1

theorem fileLines_no_newline {t : Str} : ∀ l ∈ fileLines t, '\n' ∉ l := by
  intro l hl
  unfold fileLines at hl
  by_cases ht : t = []
  · rw [if_pos ht] at hl
    simp at hl
  · rw [if_neg ht] at hl
    have hmem : l ∈ splitChar '\n' t := by
      by_cases hlast : (splitChar '\n' t).getLast? = some []
      · rw [if_pos hlast] at hl
        exact (List.dropLast_sublist _).subset hl
      · rw [if_neg hlast] at hl
        exact hl
    exact not_sep_of_mem_splitChar hmem

/-! ## Stability of formatting under feats normalisation -/

theorem normFeats_sorted (f : Feats) :
    List.insertionSort pairLe (normFeats f) = normFeats f := by
  apply List.Sorted.insertionSort_eq
  unfold normFeats
  exact List.Pairwise.map _ (fun a b hab => hab) (List.sorted_insertionSort pairLe f)

theorem normFeats_ne_nil {f : Feats} (h : f ≠ []) : normFeats f ≠ [] := by
  unfold normFeats
  intro h0
  rw [List.map_eq_nil_iff] at h0
  have hp := List.perm_insertionSort pairLe f
  rw [h0] at hp
  exact h hp.symm.eq_nil

theorem formatFeats_normFeats (f : Feats) :
    formatFeats (normFeats f) = formatFeats f := by
  by_cases hne : f = []
  · subst hne; rfl
  · rw [formatFeats_eq_joinSep _ (normFeats_ne_nil hne), formatFeats_eq_joinSep _ hne]
    rw [normFeats_sorted]
    unfold normFeats
    rw [List.map_map]
    congr 1
    apply List.map_congr_left
    intro kv _
    show renderKV (kv.1, List.insertionSort sLe kv.2) = renderKV kv
    unfold renderKV
    rw [insertionSort_sLe_idem]

theorem format_word_normWord (w : Word) :
    format_word (normWord w) = format_word w := by
  rw [format_word_eq, format_word_eq]
  show joinSep ['\t'] [idStr w.ID, w.FORM, w.LEMMA, w.UPOSTAG, w.XPOSTAG,
      formatFeats (normFeats w.FEATS), headStr w.HEAD, w.DEPREL, w.DEPS, w.MISC] = _
  rw [formatFeats_normFeats]
  rfl

theorem write_sentences_text_norm (S : List (List Word)) :
    write_sentences_text (S.map (List.map normWord)) = write_sentences_text S := by
  unfold write_sentences_text
  rw [List.map_map]
  congr 1
  apply List.map_congr_left
  intro s _
  show format_sentence (s.map normWord) = format_sentence s
  unfold format_sentence
  rw [List.map_map]
  congr 2
  apply List.map_congr_left
  intro w _
  exact format_word_normWord w

/-! ## Claim theorems -/

/-- C2: round trip through text.  For any sequence of sentences of words
satisfying the reader-image invariant, parsing the text written by
`write_sentences` yields the same sentences back after feats-ordering
normalisation (keys sorted lexicographically, value sets canonical). -/
theorem claim_c2_parse_format_roundtrip (P : List Str) (dp sp path : Str)
    (S : List (List Word)) (hS : ∀ s ∈ S, ∀ w ∈ s, ParsedInv P w) :
    (gen_sentences P dp sp path true (fileLines (write_sentences_text S))).map
      (List.map Prod.snd) = .ok (S.map (List.map normWord)) := by
  rw [fileLines_write_sentences hS]
  unfold gen_sentences
  rw [genAux_sentences P dp sp true S hS (fun s _ w _ => Or.inl rfl) 0 (.strv []) (.strv []) 0]
  show Except.ok (List.map Prod.snd
    ((genNames (.strv []) (.strv []) 0 S.length).zip (S.map (List.map normWord)))) = _
  rw [List.map_snd_zip]
  rw [genNames_length, List.length_map]

/-- Witness for C2 at the specification's two-token example sentence. -/
theorem claim_c2_parse_format_roundtrip_witness :
    (∀ s ∈ [[exWord1, exWord2]], ∀ w ∈ s, ParsedInv ["DET".data, "NOUN".data] w) ∧
    (gen_sentences ["DET".data, "NOUN".data] "# newdoc id = ".data "# sent_id = ".data
        "p".data true (fileLines (write_sentences_text [[exWord1, exWord2]]))).map
      (List.map Prod.snd) = .ok ([[exWord1, exWord2]].map (List.map normWord)) :=
  ⟨by decide, claim_c2_parse_format_roundtrip _ _ _ _ _ (by decide)⟩

theorem gen_sentences_ok_inv {P : List Str} {dp sp path : Str} {mw : Bool}
    {lines : List Str} {r : List (Str × List Word)}
    (h : gen_sentences P dp sp path mw lines = .ok r) :
    genAux P dp sp mw lines 0 (.strv []) (.strv []) 0 [] = .ok r := by
  unfold gen_sentences at h
  cases hga : genAux P dp sp mw lines 0 (.strv []) (.strv []) 0 [] with
  | ok r2 =>
    rw [hga] at h
    simpa using h
  | error i =>
    rw [hga] at h
    have h2 : (Except.error (couldNotRead path i) : Except Str (List (Str × List Word))) =
        .ok r := h
    exact absurd h2 (by simp)

/-- C8: formatting is idempotent across a read cycle.  If a file parses,
then formatting the parse, re-parsing that text and formatting again
yields byte-identical text: canonical feats sorting makes write/read
cycles a fixed point. -/
theorem claim_c8_format_idempotent (P : List Str) (dp sp path : Str) (mw : Bool)
    (text : Str) (r1 : List (Str × List Word))
    (h : gen_sentences P dp sp path mw (fileLines text) = .ok r1) :
    (gen_sentences P dp sp path mw
        (fileLines (write_sentences_text (r1.map Prod.snd)))).map
      (fun r => write_sentences_text (r.map Prod.snd)) =
      .ok (write_sentences_text (r1.map Prod.snd)) := by
  have hg := gen_sentences_ok_inv h
  have hinv := genAux_parsedInv (fileLines text) 0 (.strv []) (.strv []) 0 [] r1 hg
    fileLines_no_newline (by simp)
  have hS : ∀ s ∈ r1.map Prod.snd, ∀ w ∈ s, ParsedInv P w := by
    intro s hs w hw
    rcases List.mem_map.mp hs with ⟨p, hp, rfl⟩
    exact (hinv p hp w hw).1
  have hmw : ∀ s ∈ r1.map Prod.snd, ∀ w ∈ s, mw = true ∨ isNumId w.ID = true := by
    intro s hs w hw
    rcases List.mem_map.mp hs with ⟨p, hp, rfl⟩
    cases hm : mw with
    | true => exact Or.inl rfl
    | false => exact Or.inr ((hinv p hp w hw).2 hm)
  rw [fileLines_write_sentences hS]
  unfold gen_sentences
  rw [genAux_sentences P dp sp mw _ hS hmw 0 (.strv []) (.strv []) 0]
  show Except.ok (write_sentences_text
      ((((genNames (.strv []) (.strv []) 0 (r1.map Prod.snd).length).zip
        ((r1.map Prod.snd).map (List.map normWord)))).map Prod.snd)) = _
  rw [List.map_snd_zip]
  · rw [write_sentences_text_norm]
  · rw [genNames_length, List.length_map]

/-- Witness for C8 at a one-sentence file. -/
theorem claim_c8_format_idempotent_witness :
    gen_sentences [] "#d ".data "#s ".data "p".data false
        (fileLines (plainLine ++ ['\n', '\n'])) = .ok [("0_0".data, [plainWord])] ∧
    (gen_sentences [] "#d ".data "#s ".data "p".data false
        (fileLines (write_sentences_text ([(("0_0".data : Str), [plainWord])].map Prod.snd)))).map
      (fun r => write_sentences_text (r.map Prod.snd)) =
      .ok (write_sentences_text ([(("0_0".data : Str), [plainWord])].map Prod.snd)) :=
  ⟨rfl, claim_c8_format_idempotent [] "#d ".data "#s ".data "p".data false
    (plainLine ++ ['\n', '\n']) [("0_0".data, [plainWord])] rfl⟩

/-- A trailing line the reader consumes without yielding or failing:
non-blank, and either a comment whose configured markers do not trip the
empty-marker error, or a word line that parses. -/
def consumableLine (P : List Str) (dp sp : Str) (l : Str) : Prop :=
  pyStrip l ≠ [] ∧
  ((pyStrip l).head? = some '#' →
    ∀ d sd : IdState, ∃ pr, commentUpdate dp sp (pyStrip l) d sd = .ok pr) ∧
  ((pyStrip l).head? ≠ some '#' →
    ∃ w, read_word P (splitChar '\t' (pyStrip l)) = .ok w)

theorem genAux_consumable_tail {P : List Str} {dp sp : Str} {mw : Bool} {t : List Str}
    (ht : ∀ l ∈ t, consumableLine P dp sp l) :
    ∀ i d sd cnt sent, genAux P dp sp mw t i d sd cnt sent = .ok [] := by
  induction t with
  | nil => intro i d sd cnt sent; rfl
  | cons l t' ih =>
    intro i d sd cnt sent
    obtain ⟨hb, hcom, hword⟩ := ht l (List.mem_cons_self l t')
    have ht' : ∀ x ∈ t', consumableLine P dp sp x := fun x hx =>
      ht x (List.mem_cons_of_mem l hx)
    rw [genAux_cons]
    by_cases hc : (pyStrip l).head? = some '#'
    · rw [if_pos hc]
      obtain ⟨⟨d2, sd2⟩, hcu⟩ := hcom hc d sd
      rw [hcu]
      exact ih ht' (i + 1) d2 sd2 cnt sent
    · rw [if_neg hc]
      rw [if_pos hb]
      obtain ⟨w, hw⟩ := hword hc
      rw [hw]
      exact ih ht' (i + 1) d sd cnt (if mw || isNumId w.ID then sent ++ [w] else sent)

theorem genAux_append_consumable {P : List Str} {dp sp : Str} {mw : Bool} {t : List Str}
    (ht : ∀ l ∈ t, consumableLine P dp sp l) :
    ∀ (ls : List Str) (i : Nat) (d sd : IdState) (cnt : Nat) (sent : List Word),
      genAux P dp sp mw (ls ++ t) i d sd cnt sent =
        genAux P dp sp mw ls i d sd cnt sent := by
  intro ls
  induction ls with
  | nil =>
    intro i d sd cnt sent
    rw [List.nil_append, genAux_nil]
    exact genAux_consumable_tail ht i d sd cnt sent
  | cons l ls' ih =>
    intro i d sd cnt sent
    rw [List.cons_append, genAux_cons, genAux_cons]
    by_cases hc : (pyStrip l).head? = some '#'
    · rw [if_pos hc, if_pos hc]
      cases hcu : commentUpdate dp sp (pyStrip l) d sd with
      | error e => rfl
      | ok pr =>
        obtain ⟨d2, sd2⟩ := pr
        exact ih (i + 1) d2 sd2 cnt sent
    · rw [if_neg hc, if_neg hc]
      by_cases hb : pyStrip l ≠ []
      · rw [if_pos hb, if_pos hb]
        cases hrw : read_word P (splitChar '\t' (pyStrip l)) with
        | error e => rfl
        | ok w => exact ih (i + 1) d sd cnt (if mw || isNumId w.ID then sent ++ [w] else sent)
      · rw [if_neg hb, if_neg hb]
        rw [ih (i + 1) (if d = .strv [] then .natv 0 else d)
          (if sd = .strv [] then .natv cnt else sd) (cnt + 1) []]

/-- C10: the reader yields a sentence only at a blank line.  Appending any
blank-line-free, error-free suffix after the input leaves the output
unchanged: the suffix's buffered word records are silently discarded,
neither yielded nor reported. -/
theorem claim_c10_trailing_discarded (P : List Str) (dp sp path : Str) (mw : Bool)
    (lines t : List Str) (ht : ∀ l ∈ t, consumableLine P dp sp l) :
    gen_sentences P dp sp path mw (lines ++ t) = gen_sentences P dp sp path mw lines := by
  unfold gen_sentences
  rw [genAux_append_consumable ht]

/-- Witness for C10: one closed sentence followed by a danging word line;
the word line's record is dropped from the output. -/
theorem claim_c10_trailing_discarded_witness :
    (∀ l ∈ [plainLine2], consumableLine [] "#d ".data "#s ".data l) ∧
    gen_sentences [] "#d ".data "#s ".data "p".data false ([plainLine, []] ++ [plainLine2]) =
      gen_sentences [] "#d ".data "#s ".data "p".data false [plainLine, []] ∧
    gen_sentences [] "#d ".data "#s ".data "p".data false [plainLine, []] =
      .ok [("0_0".data, [plainWord])] :=
  ⟨by
    intro l hl
    rcases List.mem_singleton.mp hl with rfl
    refine ⟨by decide, by intro h; exact absurd h (by decide), ?_⟩
    intro _
    exact ⟨⟨.num 1, "v".data, "v".data, "_".data, "_".data, [], .und,
      "_".data, "_".data, "_".data⟩, by decide⟩,
   claim_c10_trailing_discarded [] "#d ".data "#s ".data "p".data false [plainLine, []]
     [plainLine2] (by
      intro l hl
      rcases List.mem_singleton.mp hl with rfl
      refine ⟨by decide, by intro h; exact absurd h (by decide), ?_⟩
      intro _
      exact ⟨⟨.num 1, "v".data, "v".data, "_".data, "_".data, [], .und,
        "_".data, "_".data, "_".data⟩, by decide⟩),
   rfl⟩

theorem commentUpdate_error_indep {dp sp line : Str} {d sd : IdState}
    (h : commentUpdate dp sp line d sd = .error ()) :
    ∀ d2 sd2, commentUpdate dp sp line d2 sd2 = .error () := by
  intro d2 sd2
  unfold commentUpdate at h ⊢
  by_cases h1 : pyIn dp line = true
  · rw [if_pos h1] at h ⊢
    by_cases h2 : dp = []
    · rw [if_pos h2]
    · rw [if_neg h2] at h
      exact absurd h (by simp)
  · rw [if_neg h1] at h ⊢
    by_cases h3 : pyIn sp line = true
    · rw [if_pos h3] at h ⊢
      by_cases h4 : sp = []
      · rw [if_pos h4]
      · rw [if_neg h4] at h
        exact absurd h (by simp)
    · rw [if_neg h3] at h
      exact absurd h (by simp)

theorem genAux_error_inv {P : List Str} {dp sp : Str} {mw : Bool} :
    ∀ (ls : List Str) (i : Nat) (d sd : IdState) (cnt : Nat) (sent : List Word) (j : Nat),
      genAux P dp sp mw ls i d sd cnt sent = .error j →
      ∃ k, k < ls.length ∧ j = i + k ∧ violatingLine P dp sp (ls.getD k []) := by
  intro ls
  induction ls with
  | nil =>
    intro i d sd cnt sent j h
    rw [genAux_nil] at h
    exact absurd h (by simp)
  | cons l ls' ih =>
    intro i d sd cnt sent j h
    rw [genAux_cons] at h
    by_cases hc : (pyStrip l).head? = some '#'
    · rw [if_pos hc] at h
      cases hcu : commentUpdate dp sp (pyStrip l) d sd with
      | error e =>
        rw [hcu] at h
        have h2 : (Except.error i : Except Nat (List (Str × List Word))) = .error j := h
        injection h2 with h3
        refine ⟨0, by simp, by omega, ?_⟩
        left
        exact ⟨hc, commentUpdate_error_indep hcu⟩
      | ok pr =>
        obtain ⟨d2, sd2⟩ := pr
        rw [hcu] at h
        obtain ⟨k, hk, hj, hv⟩ := ih (i + 1) d2 sd2 cnt sent j h
        exact ⟨k + 1, by simpa using hk, by omega, hv⟩
    · rw [if_neg hc] at h
      by_cases hb : pyStrip l ≠ []
      · rw [if_pos hb] at h
        cases hrw : read_word P (splitChar '\t' (pyStrip l)) with
        | error e =>
          rw [hrw] at h
          have h2 : (Except.error i : Except Nat (List (Str × List Word))) = .error j := h
          injection h2 with h3
          refine ⟨0, by simp, by omega, ?_⟩
          right
          exact ⟨hc, hb, hrw⟩
        | ok w =>
          rw [hrw] at h
          have h2 : genAux P dp sp mw ls' (i + 1) d sd cnt
              (if (mw || isNumId w.ID) = true then sent ++ [w] else sent) = .error j := h
          obtain ⟨k, hk, hj, hv⟩ := ih (i + 1) d sd cnt _ j h2
          exact ⟨k + 1, by simpa using hk, by omega, hv⟩
      · rw [if_neg hb] at h
        cases hrec : genAux P dp sp mw ls' (i + 1) (if d = .strv [] then .natv 0 else d)
            (if sd = .strv [] then .natv cnt else sd) (cnt + 1) [] with
        | error e =>
          rw [hrec] at h
          have h2 : (Except.error e : Except Nat (List (Str × List Word))) = .error j := h
          injection h2 with h3
          obtain ⟨k, hk, hj, hv⟩ := ih (i + 1) _ _ (cnt + 1) [] e hrec
          exact ⟨k + 1, by simpa using hk, by omega, hv⟩
        | ok r' =>
          rw [hrec] at h
          exact absurd h (by simp)

theorem couldNotOpen_ne_couldNotRead (p q : Str) (m : Nat) :
    couldNotOpen p ≠ couldNotRead q m := by
  intro h
  have h10 : (couldNotOpen p)[10]? = (couldNotRead q m)[10]? := by rw [h]
  have e1 : (couldNotOpen p)[10]? = some 'o' := by
    unfold couldNotOpen
    rw [List.getElem?_append, if_pos (by decide)]
    rfl
  have e2 : (couldNotRead q m)[10]? = some 'r' := by
    unfold couldNotRead
    rw [List.getElem?_append]
    have hlen : 10 < ("Could not read ".data ++ q).length := by
      rw [List.length_append]
      have h15 : ("Could not read ".data).length = 15 := by decide
      omega
    rw [if_pos hlen, List.getElem?_append, if_pos (by decide)]
    rfl
  rw [e1, e2] at h10
  exact absurd h10 (by decide)

/-- C4: every read-side failure is one of two distinguishable kinds.  A
structural violation yields the `ConlluError` message carrying the path
and the 0-based line index of the first violating line; a failure to open
the stream yields the distinct `Could not open` message, and the two
message shapes never coincide. -/
theorem claim_c4_error_kinds (P : List Str) (dp sp path : Str) (mw : Bool)
    (text : Str) (e : Str)
    (h : gen_sentences P dp sp path mw (fileLines text) = .error e) :
    (∃ n, e = couldNotRead path n ∧ n < (fileLines text).length ∧
      violatingLine P dp sp ((fileLines text).getD n [])) ∧
    gen_from_file P dp sp path mw (.error ()) = .error (couldNotOpen path) ∧
    (∀ q m, couldNotOpen path ≠ couldNotRead q m) := by
  refine ⟨?_, rfl, fun q m => couldNotOpen_ne_couldNotRead path q m⟩
  unfold gen_sentences at h
  cases hga : genAux P dp sp mw (fileLines text) 0 (.strv []) (.strv []) 0 [] with
  | ok r =>
    rw [hga] at h
    have h2 : (Except.ok r : Except Str (List (Str × List Word))) = .error e := h
    exact absurd h2 (by simp)
  | error i =>
    rw [hga] at h
    have h2 : (Except.error (couldNotRead path i) : Except Str (List (Str × List Word))) =
        .error e := h
    injection h2 with h3
    obtain ⟨k, hk, hj, hv⟩ := genAux_error_inv (fileLines text) 0 (.strv []) (.strv []) 0 [] i hga
    exact ⟨i, h3.symm, by omega, by rw [show i = k by omega]; exact hv⟩

/-- Witness for C4: a one-field line fails at 0-based line 0. -/
theorem claim_c4_error_kinds_witness :
    gen_sentences [] "#d ".data "#s ".data "p".data false (fileLines "x".data) =
      .error (couldNotRead "p".data 0) ∧
    ((∃ n, couldNotRead "p".data 0 = couldNotRead "p".data n ∧
        n < (fileLines "x".data).length ∧
        violatingLine [] "#d ".data "#s ".data ((fileLines "x".data).getD n [])) ∧
      gen_from_file [] "#d ".data "#s ".data "p".data false (.error ()) =
        .error (couldNotOpen "p".data) ∧
      (∀ q m, couldNotOpen "p".data ≠ couldNotRead q m)) :=
  ⟨rfl, claim_c4_error_kinds [] "#d ".data "#s ".data "p".data false "x".data
    (couldNotRead "p".data 0) rfl⟩

/-- C5 counterexample: on a two-sentence stream without id comments the
reader names the second sentence `0_0` as well, not `0_1` — the pending
sentence id is never reset after a yield. -/
theorem claim_c5_counterexample :
    (gen_sentences [] "# newdoc id = ".data "# sent_id = ".data "p".data false
        twoSentLines).map (List.map Prod.fst) =
      .ok ["0_0".data, "0_0".data] ∧
    ("0_0".data : Str) ≠ "0_1".data := by
  constructor
  · rfl
  · decide

theorem genAux_names_default {P : List Str} {dp sp : Str} {mw : Bool} :
    ∀ (ls : List Str) (i : Nat) (d sd : IdState) (cnt : Nat) (sent : List Word)
      (r : List (Str × List Word)),
      (∀ l ∈ ls, (pyStrip l).head? ≠ some '#') →
      (d = .strv [] ∨ d = .natv 0) →
      ((sd = .strv [] ∧ cnt = 0) ∨ sd = .natv 0) →
      genAux P dp sp mw ls i d sd cnt sent = .ok r →
      r.map Prod.fst = List.replicate r.length ("0_0".data) := by
  intro ls
  induction ls with
  | nil =>
    intro i d sd cnt sent r _ _ _ hok
    rw [genAux_nil] at hok
    have h2 : (Except.ok [] : Except Nat (List (Str × List Word))) = .ok r := hok
    injection h2 with h3
    rw [← h3]
    rfl
  | cons l ls' ih =>
    intro i d sd cnt sent r hnc hd hsd hok
    have hnc' : ∀ x ∈ ls', (pyStrip x).head? ≠ some '#' := fun x hx =>
      hnc x (List.mem_cons_of_mem l hx)
    rw [genAux_cons] at hok
    rw [if_neg (hnc l (List.mem_cons_self l ls'))] at hok
    by_cases hb : pyStrip l ≠ []
    · rw [if_pos hb] at hok
      cases hrw : read_word P (splitChar '\t' (pyStrip l)) with
      | error e =>
        rw [hrw] at hok
        exact absurd hok (by simp)
      | ok w =>
        rw [hrw] at hok
        have hok2 : genAux P dp sp mw ls' (i + 1) d sd cnt
            (if (mw || isNumId w.ID) = true then sent ++ [w] else sent) = .ok r := hok
        exact ih (i + 1) d sd cnt _ r hnc' hd hsd hok2
    · rw [if_neg hb] at hok
      have hd' : (if d = .strv [] then IdState.natv 0 else d) = .natv 0 := by
        rcases hd with rfl | rfl
        · rw [if_pos rfl]
        · rw [if_neg (by simp)]
      have hsd' : (if sd = .strv [] then IdState.natv cnt else sd) = .natv 0 := by
        rcases hsd with ⟨rfl, rfl⟩ | rfl
        · rw [if_pos rfl]
        · rw [if_neg (by simp)]
      rw [hd', hsd'] at hok
      cases hrec : genAux P dp sp mw ls' (i + 1) (.natv 0) (.natv 0) (cnt + 1) [] with
      | error e =>
        rw [hrec] at hok
        exact absurd hok (by simp)
      | ok r' =>
        rw [hrec] at hok
        have h2 : (Except.ok ((idStateStr (.natv 0) ++ '_' :: idStateStr (.natv 0), sent) :: r') :
            Except Nat (List (Str × List Word))) = .ok r := hok
        injection h2 with h3
        rw [← h3]
        have hrest := ih (i + 1) (.natv 0) (.natv 0) (cnt + 1) [] r' hnc'
          (Or.inr rfl) (Or.inr rfl) hrec
        simp only [List.map_cons, List.length_cons, hrest]
        rfl

/-- C5 amended: absent any comment lines the first sentence is named
`0_0`, and so is every later sentence — after a yield only the record
buffer is reset while the pending ids persist, so the defaulted sentence
id stays `0` instead of advancing with the per-document counter. -/
theorem claim_c5_amended_naming (P : List Str) (dp sp path : Str) (mw : Bool)
    (lines : List Str) (r : List (Str × List Word))
    (hnc : ∀ l ∈ lines, (pyStrip l).head? ≠ some '#')
    (h : gen_sentences P dp sp path mw lines = .ok r) :
    r.map Prod.fst = List.replicate r.length ("0_0".data) :=
  genAux_names_default lines 0 (.strv []) (.strv []) 0 [] r hnc
    (Or.inl rfl) (Or.inl ⟨rfl, rfl⟩) (gen_sentences_ok_inv h)

/-- Witness for the amended C5 at the two-sentence input. -/
theorem claim_c5_amended_naming_witness :
    (∀ l ∈ twoSentLines, (pyStrip l).head? ≠ some '#') ∧
    gen_sentences [] "# newdoc id = ".data "# sent_id = ".data "p".data false twoSentLines =
      .ok [("0_0".data, [plainWord]), ("0_0".data, [plainWord2])] ∧
    ([(("0_0".data : Str), [plainWord]), ("0_0".data, [plainWord2])].map Prod.fst =
      List.replicate
        ([(("0_0".data : Str), [plainWord]), ("0_0".data, [plainWord2])].length)
        ("0_0".data)) :=
  ⟨by decide, rfl,
   claim_c5_amended_naming [] "# newdoc id = ".data "# sent_id = ".data "p".data false
     twoSentLines [("0_0".data, [plainWord]), ("0_0".data, [plainWord2])]
     (by decide) rfl⟩

/-- C1: the graph round trip is broken in the source.  On the
specification's own two-token example, `write_graphs (gen_graphs ...)`
raises an uncaught `IndexError` (the root node's key `'0'` never equals
the integer `0`, so the root is processed and its empty `in_edges` list is
indexed), and the nodes built by `gen_graphs` carry only a `label`
attribute — no FORM/LEMMA/UPOSTAG/FEATS to reconstruct, contrary to
`gen_graphs`'s own docstring. -/
theorem claim_c1_graph_roundtrip_broken :
    write_graphs [gen_graph .FORM false exSentence] = .error .indexErr ∧
    (∀ nd ∈ (gen_graph .FORM false exSentence).nodes,
      nd.2.FORM = none ∧ nd.2.LEMMA = none ∧ nd.2.UPOSTAG = none ∧ nd.2.FEATS = none) := by
  constructor
  · rfl
  · decide

/-- C3: the serializer's shape validation does not behave as claimed.  A
non-root node with zero incoming edges raises the uncaught `IndexError`
rather than the `ConlluError`; a node with two incoming edges is accepted
silently (the first edge is used); only the missing-attribute case raises
the `ConlluError`; and a string-keyed root `'0'` is not excluded. -/
theorem claim_c3_shape_validation_broken :
    write_graph_sentence gNoInEdge = .error .indexErr ∧
    PyErr.indexErr ≠ .conlluErr graphSpecMsg ∧
    (write_graph_sentence gTwoInEdges).isOk = true ∧
    write_graph_sentence gNoForm = .error (.conlluErr graphSpecMsg) ∧
    write_graph_sentence ⟨[(.pstr "0".data, ⟨some "x".data, none, none, none, none,
      none, none, none⟩)], [], []⟩ = .error .indexErr := by
  refine ⟨rfl, by decide, rfl, rfl, rfl⟩

/-- C7: multiword side annotations do not survive the pipeline.  The
builder stores only the id string — not the record — as the annotation
value, and the serializer's anchor search compares the string node id with
an `int`, so it raises the `ConlluError` even when the anchor token is
present in the graph. -/
theorem claim_c7_multiword_splice_broken :
    (gen_graph .FORM false mwSentence).gattrs = [("3-4".data, "3-4".data)] ∧
    write_graph_sentence gMultiword = .error (.conlluErr graphSpecMsg) := by
  constructor
  · rfl
  · rfl

/-- C9 counterexample: an accepted graph whose nodes were inserted out of
numeric order is serialized in insertion order, not ascending id order. -/
theorem claim_c9_counterexample :
    (write_graph_nodes gOutOfOrder).map (List.map GWord.ID) =
      .ok [PyKey.pstr "2".data, PyKey.pstr "1".data] ∧
    ¬ keysAscending [PyKey.pstr "2".data, PyKey.pstr "1".data] := by
  constructor
  · rfl
  · decide

theorem nodeToWord_ID {g : Graph} {k : PyKey} {d : NodeData} {w : GWord}
    (h : nodeToWord g k d = .ok w) : w.ID = k := by
  unfold nodeToWord at h
  cases he : (inEdges g k).head? with
  | none => rw [he] at h; exact absurd h (by simp)
  | some e =>
    obtain ⟨u, v, ed⟩ := e
    rw [he] at h
    cases hF : d.FORM with
    | none => rw [hF] at h; exact absurd h (by simp)
    | some fo =>
      cases hL : d.LEMMA with
      | none => rw [hF, hL] at h; exact absurd h (by simp)
      | some le =>
        cases hU : d.UPOSTAG with
        | none => rw [hF, hL, hU] at h; exact absurd h (by simp)
        | some up =>
          rw [hF, hL, hU] at h
          cases hFe : d.FEATS with
          | none => rw [hFe] at h; exact absurd h (by simp)
          | some fe =>
            rw [hFe] at h
            have h2 : (Except.ok (⟨k, fo, le, up, d.XPOSTAG.getD ['_'], fe, u,
                ed.DEPREL.getD ['_'], d.DEPS.getD ['_'], d.MISC.getD ['_']⟩ : GWord) :
                Except PyErr GWord) = .ok w := h
            injection h2 with h3
            rw [← h3]

theorem wgnAux_order (g : Graph) :
    ∀ (nodes : List (PyKey × NodeData)) (ws : List GWord),
      wgnAux g nodes = .ok ws →
      ws.map GWord.ID = (nodes.map Prod.fst).filter (fun k => !(pyKeyEq k (.pint 0))) := by
  intro nodes
  induction nodes with
  | nil =>
    intro ws h
    have h2 : (Except.ok [] : Except PyErr (List GWord)) = .ok ws := h
    injection h2 with h3
    rw [← h3]
    rfl
  | cons nd rest ih =>
    intro ws h
    obtain ⟨k, d⟩ := nd
    rw [show wgnAux g ((k, d) :: rest) =
        (if pyKeyEq k (.pint 0) = true then wgnAux g rest
         else match nodeToWord g k d with
           | .error e => .error e
           | .ok w => match wgnAux g rest with
             | .error e => .error e
             | .ok ws2 => .ok (w :: ws2)) from rfl] at h
    by_cases hk : pyKeyEq k (.pint 0) = true
    · rw [if_pos hk] at h
      simp only [List.map_cons, List.filter_cons]
      rw [hk]
      rw [show (!true) = false from rfl, if_neg (by simp)]
      exact ih ws h
    · rw [if_neg hk] at h
      cases hw : nodeToWord g k d with
      | error e => rw [hw] at h; exact absurd h (by simp)
      | ok w =>
        rw [hw] at h
        cases hrest : wgnAux g rest with
        | error e => rw [hrest] at h; exact absurd h (by simp)
        | ok ws2 =>
          rw [hrest] at h
          have h2 : (Except.ok (w :: ws2) : Except PyErr (List GWord)) = .ok ws := h
          injection h2 with h3
          rw [← h3]
          simp only [List.map_cons, List.filter_cons]
          rw [Bool.eq_false_iff.mpr hk]
          rw [show (!false) = true from rfl, if_pos rfl]
          rw [nodeToWord_ID hw, ih ws2 hrest]

/-- C9 amended: the serializer emits reconstructed words in the graph's
node iteration (insertion) order with only an integer-`0`-keyed root
skipped; it does not re-sort them by numeric id. -/
theorem claim_c9_amended_insertion_order (g : Graph) (ws : List GWord)
    (h : write_graph_nodes g = .ok ws) :
    ws.map GWord.ID = (g.nodes.map Prod.fst).filter (fun k => !(pyKeyEq k (.pint 0))) :=
  wgnAux_order g g.nodes ws h

theorem isdigit_all_idChar {s : Str} (h : isdigitStr s = true) :
    s.all idChar = true := by
  unfold isdigitStr at h
  rw [Bool.and_eq_true] at h
  rw [List.all_eq_true] at h ⊢
  intro c hc
  unfold idChar
  rw [h.2 c hc]
  rfl

theorem idParse_none_iff {f0 : Str} (hne : f0 ≠ []) :
    idParse f0 = none ↔ badIdField f0 := by
  unfold idParse badIdField
  by_cases hd : isdigitStr f0 = true
  · rw [hd, if_pos rfl]
    constructor
    · intro h; exact absurd h (by simp)
    · intro h
      exact absurd ⟨hne, List.all_eq_true.mp (isdigit_all_idChar hd)⟩ h.2
  · rw [if_neg (by simpa using hd)]
    by_cases ha : f0.all idChar = true
    · rw [if_pos ha]
      constructor
      · intro h; exact absurd h (by simp)
      · intro h
        exact absurd ⟨hne, List.all_eq_true.mp ha⟩ h.2
    · rw [if_neg ha]
      constructor
      · intro _
        refine ⟨fun hc => hd hc.1, fun hc => ?_⟩
        exact ha (List.all_eq_true.mpr hc.2)
      · intro _; rfl

theorem parseFeatsStep_shape (acc : Feats) (part : Str) :
    (∃ d, parseFeatsStep acc part = .ok d) ↔ (splitChar '=' part).length = 2 := by
  unfold parseFeatsStep
  cases hsp : splitChar '=' part with
  | nil => simp
  | cons k t =>
    cases t with
    | nil => simp
    | cons v t2 =>
      cases t2 with
      | nil => simp
      | cons x t3 => simp

theorem foldlM_parseFeats_error_iff (parts : List Str) :
    ∀ acc, (List.foldlM parseFeatsStep acc parts = .error ()) ↔
      ∃ part ∈ parts, (splitChar '=' part).length ≠ 2 := by
  induction parts with
  | nil =>
    intro acc
    constructor
    · intro h
      have h2 : (Except.ok acc : Except Unit Feats) = .error () := h
      exact absurd h2 (by simp)
    · intro ⟨part, hp, hx⟩
      simp at hp
  | cons p ps ih =>
    intro acc
    simp only [List.foldlM_cons]
    by_cases hlen : (splitChar '=' p).length = 2
    · obtain ⟨d, hd⟩ := (parseFeatsStep_shape acc p).mpr hlen
      rw [hd]
      constructor
      · intro h
        have h2 : List.foldlM parseFeatsStep d ps = .error () := h
        obtain ⟨part, hp, hl⟩ := (ih d).mp h2
        exact ⟨part, List.mem_cons_of_mem p hp, hl⟩
      · intro ⟨part, hp, hl⟩
        rcases List.mem_cons.mp hp with rfl | hp2
        · exact absurd hlen hl
        · show List.foldlM parseFeatsStep d ps = .error ()
          exact (ih d).mpr ⟨part, hp2, hl⟩
    · have hstep : parseFeatsStep acc p = .error () := by
        cases hst : parseFeatsStep acc p with
        | ok d => exact absurd ((parseFeatsStep_shape acc p).mp ⟨d, hst⟩) hlen
        | error e => rfl
      rw [hstep]
      constructor
      · intro _
        exact ⟨p, List.mem_cons_self p ps, hlen⟩
      · intro _
        rfl

theorem featsParseField_error_iff (f5 : Str) :
    featsParseField f5 = .error () ↔ badFeatsField f5 := by
  unfold featsParseField badFeatsField
  by_cases h5 : f5 = ['_']
  · rw [if_pos h5]
    constructor
    · intro h; exact absurd h (by simp)
    · intro h; exact absurd h5 h.1
  · rw [if_neg h5]
    unfold parseFeats
    rw [foldlM_parseFeats_error_iff (splitChar '|' f5) []]
    constructor
    · intro h; exact ⟨h5, h⟩
    · intro h; exact h.2

theorem headParse_none_iff (f6 : Str) :
    headParse f6 = none ↔ badHeadField f6 := by
  unfold headParse badHeadField
  by_cases h6 : f6 = ['_']
  · rw [if_pos h6]
    constructor
    · intro h; exact absurd h (by simp)
    · intro h; exact absurd h6 h.1
  · rw [if_neg h6]
    by_cases hv : pyIntValid f6 = true
    · rw [if_pos hv]
      constructor
      · intro h; exact absurd h (by simp)
      · intro h
        rw [hv] at h
        exact absurd h.2 (by simp)
    · rw [if_neg hv]
      constructor
      · intro _
        exact ⟨h6, Bool.eq_false_iff.mpr hv⟩
      · intro _; rfl

/-- C6 counterexample: the line `1 a a _ _ _ xx r _ _` satisfies none of
the claim's four failure conditions, yet `_read_word` fails on it — the
head field `xx` makes `int()` raise. -/
theorem claim_c6_counterexample :
    read_word [] badHeadLine = .error () ∧ ¬ specParseFailure [] badHeadLine := by
  constructor
  · rfl
  · decide

theorem not_tenFieldsOk_of_length {line : List Str} (h : line.length ≠ 10) :
    ¬ tenFieldsOk line := fun ht => h ht.1

/-- C6 amended: `_read_word` fails exactly on the specification's four
conditions extended by a fifth — a head field that is neither `'_'` nor
readable by `int()`. -/
theorem claim_c6_amended_parse_failure (P : List Str) (line : List Str) :
    read_word P line = .error () ↔
      specParseFailure P line ∨ (tenFieldsOk line ∧ badHeadField (line.getD 6 [])) := by
  rcases line with - | ⟨f0, - | ⟨f1, - | ⟨f2, - | ⟨f3, - | ⟨f4, - | ⟨f5, - | ⟨f6, - |
    ⟨f7, - | ⟨f8, - | ⟨f9, - | ⟨f10, rest⟩⟩⟩⟩⟩⟩⟩⟩⟩⟩⟩
  case nil => exact iff_of_true rfl (Or.inl (Or.inl (not_tenFieldsOk_of_length (by simp))))
  case cons.nil =>
    exact iff_of_true rfl (Or.inl (Or.inl (not_tenFieldsOk_of_length (by simp))))
  case cons.cons.nil =>
    exact iff_of_true rfl (Or.inl (Or.inl (not_tenFieldsOk_of_length (by simp))))
  case cons.cons.cons.nil =>
    exact iff_of_true rfl (Or.inl (Or.inl (not_tenFieldsOk_of_length (by simp))))
  case cons.cons.cons.cons.nil =>
    exact iff_of_true rfl (Or.inl (Or.inl (not_tenFieldsOk_of_length (by simp))))
  case cons.cons.cons.cons.cons.nil =>
    exact iff_of_true rfl (Or.inl (Or.inl (not_tenFieldsOk_of_length (by simp))))
  case cons.cons.cons.cons.cons.cons.nil =>
    exact iff_of_true rfl (Or.inl (Or.inl (not_tenFieldsOk_of_length (by simp))))
  case cons.cons.cons.cons.cons.cons.cons.nil =>
    exact iff_of_true rfl (Or.inl (Or.inl (not_tenFieldsOk_of_length (by simp))))
  case cons.cons.cons.cons.cons.cons.cons.cons.nil =>
    exact iff_of_true rfl (Or.inl (Or.inl (not_tenFieldsOk_of_length (by simp))))
  case cons.cons.cons.cons.cons.cons.cons.cons.cons.nil =>
    exact iff_of_true rfl (Or.inl (Or.inl (not_tenFieldsOk_of_length (by simp))))
  case cons.cons.cons.cons.cons.cons.cons.cons.cons.cons.cons =>
    exact iff_of_true rfl (Or.inl (Or.inl (not_tenFieldsOk_of_length (by simp))))
  case cons.cons.cons.cons.cons.cons.cons.cons.cons.cons.nil =>
    rw [read_word_ten]
    by_cases hemp : f0 = [] ∨ f1 = [] ∨ f2 = [] ∨ f3 = [] ∨ f4 = [] ∨
        f5 = [] ∨ f6 = [] ∨ f7 = [] ∨ f8 = [] ∨ f9 = []
    · rw [if_pos hemp]
      refine iff_of_true rfl (Or.inl (Or.inl (fun ht => ?_)))
      rcases hemp with h|h|h|h|h|h|h|h|h|h <;>
        exact ht.2 _ (by simp) h
    · rw [if_neg hemp]
      push_neg at hemp
      obtain ⟨he0, he1, he2, he3, he4, he5, he6, he7, he8, he9⟩ := hemp
      have hten : tenFieldsOk [f0, f1, f2, f3, f4, f5, f6, f7, f8, f9] := by
        refine ⟨rfl, ?_⟩
        intro f hf
        simp only [List.mem_cons, List.not_mem_nil, or_false] at hf
        rcases hf with rfl|rfl|rfl|rfl|rfl|rfl|rfl|rfl|rfl|rfl <;> assumption
      cases hid : idParse f0 with
      | none =>
        refine iff_of_true rfl (Or.inl (Or.inr (Or.inl ?_)))
        exact (idParse_none_iff he0).mp hid
      | some idv =>
        show (if f3 ∈ P ∨ f3 = ['_'] then
            match featsParseField f5 with
            | .error _ => Except.error ()
            | .ok fe =>
              match headParse f6 with
              | none => Except.error ()
              | some hd =>
                Except.ok (⟨idv, f1, f2, f3, f4, fe, hd, f7, f8, f9⟩ : Word)
          else Except.error ()) = Except.error () ↔ _
        by_cases hup : f3 ∈ P ∨ f3 = ['_']
        · rw [if_pos hup]
          cases hfe : featsParseField f5 with
          | error e =>
            refine iff_of_true rfl (Or.inl (Or.inr (Or.inr (Or.inr ?_))))
            exact (featsParseField_error_iff f5).mp hfe
          | ok fe =>
            show (match headParse f6 with
              | none => Except.error ()
              | some hd =>
                Except.ok (⟨idv, f1, f2, f3, f4, fe, hd, f7, f8, f9⟩ : Word)) =
                Except.error () ↔ _
            cases hhd : headParse f6 with
            | none =>
              refine iff_of_true rfl (Or.inr ⟨hten, ?_⟩)
              exact (headParse_none_iff f6).mp hhd
            | some hd =>
              refine iff_of_false (by simp) ?_
              rintro (hspec | ⟨-, hbh⟩)
              · rcases hspec with hs | hs | hs | hs
                · exact hs hten
                · have h0 : idParse f0 = none := (idParse_none_iff he0).mpr hs
                  rw [hid] at h0
                  exact absurd h0 (by simp)
                · exact hs.1 (by rcases hup with h | h; exact h; exact absurd h hs.2)
                · have h0 : featsParseField f5 = .error () :=
                    (featsParseField_error_iff f5).mpr hs
                  rw [hfe] at h0
                  exact absurd h0 (by simp)
              · have h0 : headParse f6 = none := (headParse_none_iff f6).mpr hbh
                rw [hhd] at h0
                exact absurd h0 (by simp)
        · rw [if_neg hup]
          push_neg at hup
          exact iff_of_true rfl (Or.inl (Or.inr (Or.inr (Or.inl hup))))

/-- Witness for the amended C9 at the out-of-order graph. -/
theorem claim_c9_amended_insertion_order_witness :
    write_graph_nodes gOutOfOrder = .ok
      [⟨.pstr "2".data, "b".data, "b".data, "Y".data, "_".data, [], .pstr "1".data,
        "_".data, "_".data, "_".data⟩,
       ⟨.pstr "1".data, "a".data, "a".data, "X".data, "_".data, [], .pstr "2".data,
        "_".data, "_".data, "_".data⟩] ∧
    ([(⟨.pstr "2".data, "b".data, "b".data, "Y".data, "_".data, [], .pstr "1".data,
        "_".data, "_".data, "_".data⟩ : GWord),
      ⟨.pstr "1".data, "a".data, "a".data, "X".data, "_".data, [], .pstr "2".data,
        "_".data, "_".data, "_".data⟩].map GWord.ID =
      (gOutOfOrder.nodes.map Prod.fst).filter (fun k => !(pyKeyEq k (.pint 0)))) :=
  ⟨rfl, claim_c9_amended_insertion_order gOutOfOrder _ rfl⟩

end Conllu
